import Mathlib

/-
  Verification of the BitNames validation and state-transition core
  (src/validation.rs, src/types.rs, src/hashes.rs) against its
  natural-language specification.

  The embedding follows src/validation.rs, the latest iteration of the
  module: the struct BitNamesState with its seven persistent tables,
  validate_body / validate_transaction / validate_transaction_pure /
  connect_body / connect_deposits, and the error enums.  heed databases
  are modelled as association lists (unique-key maps with ordered
  iteration, matching LMDB semantics); u32 and u64 counters are
  modelled as Nat, with truncated subtraction standing in for u32
  subtraction (the two agree whenever the subtrahend is not larger,
  which every theorem below guarantees by hypothesis or by concrete
  instantiation).  Rust panics (slice-range violations and Option
  unwraps) are modelled by an outer Option layer: none means the call
  panics instead of returning.
-/

namespace SdkBitnames

/-- Key is a 32-byte hash newtype in src/hashes.rs; modelled as a natural number. -/
abbrev Key := Nat

/-- Value is a 32-byte hash newtype in src/hashes.rs; modelled as a natural number. -/
abbrev Value := Nat

/-- Commitment is a 32-byte HMAC newtype in src/hashes.rs; modelled as a natural number. -/
abbrev Commitment := Nat

/-- Address is the address identifier of sdk_types; modelled as a natural number. -/
abbrev Address := Nat

/-- Txid is the transaction-hash newtype of sdk_types; modelled as a natural number. -/
abbrev Txid := Nat

/-- OutPoint of sdk_types, per the spec data model: a Regular reference
to the vout-th output of a past transaction, or an external Deposit. -/
inductive OutPoint where
  | regular (txid : Txid) (vout : Nat)
  | deposit (id : Nat)
deriving DecidableEq

/-- Custom output kinds exactly as consumed by src/validation.rs
(which pattern-matches Commitment(c), Reveal with salt and key fields,
and KeyValue with key and value fields; the declaration in src/types.rs
is an older iteration of the module that lacks KeyValue and still has a
value field inside Reveal).  The value stored by a KeyValue output is
an optional Value, matching the key_to_value database type
Database of Key to Option Value in validation.rs. -/
inductive BitNamesOutput where
  | commitment (c : Commitment)
  | reveal (salt : Nat) (key : Key)
  | keyValue (key : Key) (value : Option Value)
deriving DecidableEq

/-- Content of an output: an ordinary transferable amount or a custom
BitNames output (sdk_types Content, per the spec data model). -/
inductive Content where
  | value (v : Nat)
  | custom (b : BitNamesOutput)
deriving DecidableEq

/-- Output of sdk_types: an address plus content. -/
structure Output where
  address : Address
  content : Content
deriving DecidableEq

/-- Monetary value of a content: Value(v) counts v, every custom
BitNames output counts 0 (GetValue impl in src/types.rs). -/
def Content.getValue : Content → Nat
  | .value v => v
  | .custom _ => 0

/-- Monetary value of an output. -/
def Output.getValue (o : Output) : Nat := o.content.getValue

/-- Authorization of the external ed25519 crate: a public key and a
signature, both modelled as naturals. -/
structure Authorization where
  public_key : Nat
  signature : Nat
deriving DecidableEq

/-- Transaction of sdk_types: inputs, outputs, authorizations. -/
structure Transaction where
  inputs : List OutPoint
  outputs : List Output
  authorizations : List Authorization
deriving DecidableEq

/-- Body of sdk_types: the transactions of a block plus coinbase outputs. -/
structure Body where
  transactions : List Transaction
  coinbase : List Output
deriving DecidableEq

/-- Injective numeric code of an outpoint. -/
def encOutPoint : OutPoint → Nat
  | .regular t v => 2 * Nat.pair t v
  | .deposit i => 2 * i + 1

/-- Injective numeric code of a custom output. -/
def encBitNamesOutput : BitNamesOutput → Nat
  | .commitment c => 3 * c
  | .reveal s k => 3 * Nat.pair s k + 1
  | .keyValue k v => 3 * Nat.pair k (match v with | none => 0 | some x => x + 1) + 2

/-- Injective numeric code of a content. -/
def encContent : Content → Nat
  | .value v => 2 * v
  | .custom b => 2 * encBitNamesOutput b + 1

/-- Injective numeric code of an output. -/
def encOutput (o : Output) : Nat := Nat.pair o.address (encContent o.content)

/-- Injective numeric code of an authorization. -/
def encAuthorization (a : Authorization) : Nat := Nat.pair a.public_key a.signature

/-- Injective numeric code of a list, given codes of its elements. -/
def encList (f : α → Nat) : List α → Nat
  | [] => 0
  | x :: xs => Nat.pair (f x) (encList f xs) + 1

/-- Modelled from the spec: content_hash over the canonical
serialisation (spec 4.1) as used by sdk_types for txids.  The external
256-bit cryptographic hash is represented by an injective numeric
encoding of the transaction. -/
def hashTx (tx : Transaction) : Txid :=
  Nat.pair (encList encOutPoint tx.inputs)
    (Nat.pair (encList encOutput tx.outputs) (encList encAuthorization tx.authorizations))

/-- Modelled from the spec: the signing message is the content hash of
the transaction taken with the authorization list empty (spec 4.2). -/
def sigMsg (tx : Transaction) : Nat :=
  hashTx (Transaction.mk tx.inputs tx.outputs [])

/-- Modelled from the spec: commit(key, salt), the keyed 32-byte HMAC
of src/hashes.rs (blake2b_hmac).  The external Blake2b MAC is
represented by the injective Cantor pairing, preserving determinism
and injectivity on (key, salt) pairs. -/
def blake2b_hmac (key : Key) (salt : Nat) : Commitment := Nat.pair key salt

/-- Lookup in an association-list map (first matching key, as in a
database with unique keys). -/
def alGet [DecidableEq κ] : List (κ × ν) → κ → Option ν
  | [], _ => none
  | p :: rest, k => if p.1 = k then some p.2 else alGet rest k

/-- Upsert in an association-list map (heed put semantics: overwrite
the entry if the key is present, append otherwise). -/
def alPut [DecidableEq κ] : List (κ × ν) → κ → ν → List (κ × ν)
  | [], k, v => [(k, v)]
  | p :: rest, k, v => if p.1 = k then (k, v) :: rest else p :: alPut rest k v

/-- Deletion from an association-list map (heed delete semantics). -/
def alDelete [DecidableEq κ] : List (κ × ν) → κ → List (κ × ν)
  | [], _ => []
  | p :: rest, k => if p.1 = k then alDelete rest k else p :: alDelete rest k

/-- BitNamesState of src/validation.rs: the seven persistent tables
plus the best_block_height counter.  Each heed database is an
association-list map. -/
structure BitNamesState where
  key_to_value : List (Key × Option Value)
  commitment_to_height : List (Commitment × Nat)
  commitment_to_outpoint : List (Commitment × OutPoint)
  key_to_commitment : List (Key × Commitment)
  commitment_to_key : List (Commitment × Key)
  utxos : List (OutPoint × Output)
  best_block_height : Nat
deriving DecidableEq

/-- COMMITMENT_MAX_AGE constant of src/validation.rs. -/
def COMMITMENT_MAX_AGE : Nat := 1

/-- Sdk-layer error kinds, modelled from the spec error taxonomy
(section 7): the base UTXO errors of the external sdk_types crate. -/
inductive SdkError where
  | unknownOutpoint
  | doubleSpendInBody
  | notBalanced
deriving DecidableEq

/-- BitNamesError of src/validation.rs, field for field. -/
inductive BitNamesError where
  | invalidNameCommitment (key : Key) (salt : Nat) (commitment : Commitment)
  | keyAlreadyRegistered (key : Key) (prev_commitment_height : Nat) (commitment_height : Nat)
  | commitmentNotFound (commitment : Commitment)
  | keyNotFound (key : Key)
  | revealTooLate (commitment : Commitment) (late_by : Nat)
  | invalidKey (key : Key)
deriving DecidableEq

/-- Error of src/validation.rs.  The heed storage variant is omitted:
the pure in-memory model has no storage failures. -/
inductive Error where
  | authorization
  | sdk (e : SdkError)
  | bitNames (e : BitNamesError)
deriving DecidableEq

/-- get_commitment_height of src/validation.rs: the height a
commitment was first seen at, or CommitmentNotFound. -/
def get_commitment_height (s : BitNamesState) (c : Commitment) : Except Error Nat :=
  match alGet s.commitment_to_height c with
  | some h => .ok h
  | none => .error (.bitNames (.commitmentNotFound c))

/-- get_key_height of src/validation.rs: the height of the commitment
currently bound to a key. -/
def get_key_height (s : BitNamesState) (k : Key) : Except Error Nat :=
  match alGet s.key_to_commitment k with
  | none => .error (.bitNames (.keyNotFound k))
  | some c =>
    match alGet s.commitment_to_height c with
    | none => .error (.bitNames (.commitmentNotFound c))
    | some h => .ok h

/-- Commitments carried by the spent UTXOs of a transaction
(spent_commitments in validate_transaction_pure).  The source collects
them into a HashSet; the model keeps the list, whose membership is the
same and whose per-element checks are identical. -/
def spentCommitments (spent : List Output) : List Commitment :=
  spent.filterMap fun u =>
    match u.content with
    | .custom (.commitment c) => some c
    | _ => none

/-- Keys carried by spent Reveal or KeyValue UTXOs (spent_keys in
validate_transaction_pure). -/
def spentKeys (spent : List Output) : List Key :=
  spent.filterMap fun u =>
    match u.content with
    | .custom (.reveal _ k) => some k
    | .custom (.keyValue k _) => some k
    | _ => none

/-- Commitment-freshness loop of validate_transaction_pure: every
spent commitment must be recorded and at most COMMITMENT_MAX_AGE
blocks old at the validation height. -/
def checkFreshness (s : BitNamesState) (bh : Nat) : List Commitment → Except Error Unit
  | [] => .ok ()
  | c :: rest =>
    match get_commitment_height s c with
    | .error e => .error e
    | .ok h =>
      if bh - h > COMMITMENT_MAX_AGE then
        .error (.bitNames (.revealTooLate c (bh - h - COMMITMENT_MAX_AGE)))
      else checkFreshness s bh rest

/-- Output loop of validate_transaction_pure: Reveal outputs must match
a spent commitment and win the tie-break against a registered key;
KeyValue outputs must renew a spent Reveal or KeyValue for the same key. -/
def checkOutputs (s : BitNamesState) (sc : List Commitment) (sk : List Key) :
    List Output → Except Error Unit
  | [] => .ok ()
  | o :: rest =>
    match o.content with
    | .custom (.reveal salt key) =>
      let c := blake2b_hmac key salt
      if c ∈ sc then
        if (alGet s.key_to_value key).isSome then
          match get_commitment_height s c with
          | .error e => .error e
          | .ok ch =>
            match get_key_height s key with
            | .error e => .error e
            | .ok ph =>
              if ph < ch then
                .error (.bitNames (.keyAlreadyRegistered key ph ch))
              else checkOutputs s sc sk rest
        else checkOutputs s sc sk rest
      else .error (.bitNames (.invalidNameCommitment key salt c))
    | .custom (.keyValue key _) =>
      if key ∈ sk then checkOutputs s sc sk rest
      else .error (.bitNames (.invalidKey key))
    | _ => checkOutputs s sc sk rest

/-- validate_transaction_pure of src/validation.rs: commitment
freshness over the spent commitments, then the per-output checks. -/
def validate_transaction_pure (s : BitNamesState) (spent : List Output) (bh : Nat)
    (tx : Transaction) : Except Error Unit :=
  match checkFreshness s bh (spentCommitments spent) with
  | .error e => .error e
  | .ok () => checkOutputs s (spentCommitments spent) (spentKeys spent) tx.outputs

/-- Per-transaction authorization check, modelled from the spec
(section 4.2): as many authorizations as inputs, each signature valid
on the transaction hash taken with an empty authorization list.  The
external ed25519 scheme is represented by an executable stand-in
(a valid signature is the pairing of the public key with the message);
the address binding of spec 4.2 needs the spent UTXOs and is not
available to the body-level call of the external crate. -/
def transactionAuthOk (tx : Transaction) : Bool :=
  tx.authorizations.length == tx.inputs.length &&
    tx.authorizations.all fun a => a.signature == Nat.pair a.public_key (sigMsg tx)

/-- Modelled from the spec: verify_authorizations(body) of the external
sdk_authorization_ed25519_dalek crate verifies each transaction in order. -/
def verify_authorizations (body : Body) : Except Error Unit :=
  if body.transactions.all transactionAuthOk then .ok () else .error .authorization

/-- Input resolution of get_utxos plus the collect-unwrap in
validate_body and validate_transaction: every input is looked up in
the utxo table; any missing input makes the surrounding unwrap panic,
modelled by none. -/
def resolveInputs (utxos : List (OutPoint × Output)) : List OutPoint → Option (List Output)
  | [] => some []
  | i :: rest =>
    match alGet utxos i with
    | none => none
    | some u =>
      match resolveInputs utxos rest with
      | none => none
      | some us => some (u :: us)

/-- Flattened inputs of every transaction of a body, in order. -/
def flattenInputs (body : Body) : List OutPoint :=
  (body.transactions.map Transaction.inputs).flatten

/-- Modelled from the spec: validate_transaction of the external
sdk_types crate (spec 4.3): as many spent UTXOs as inputs, inputs
pairwise distinct, value out no greater than value in; returns the fee. -/
def sdkValidateTransaction (spent : List Output) (tx : Transaction) : Except Error Nat :=
  if spent.length ≠ tx.inputs.length then .error (.sdk .unknownOutpoint)
  else if ¬ tx.inputs.Nodup then .error (.sdk .doubleSpendInBody)
  else
    let vin := (spent.map Output.getValue).sum
    let vout := (tx.outputs.map Output.getValue).sum
    if vout > vin then .error (.sdk .notBalanced) else .ok (vin - vout)

/-- Fee-summing loop of the external validate_body, slicing each
transaction's own spent UTXOs off the front of the flattened list. -/
def sdkValidateBodyAux (spent : List Output) : List Transaction → Except Error Nat
  | [] => .ok 0
  | tx :: rest =>
    match sdkValidateTransaction (spent.take tx.inputs.length) tx with
    | .error e => .error e
    | .ok fee =>
      match sdkValidateBodyAux (spent.drop tx.inputs.length) rest with
      | .error e => .error e
      | .ok fees => .ok (fee + fees)

/-- Modelled from the spec: validate_body of the external sdk_types
crate (spec 4.3): inputs pairwise distinct across the body, then the
per-transaction base rules; returns the total fee. -/
def sdkValidateBody (spent : List Output) (body : Body) : Except Error Nat :=
  if (flattenInputs body).Nodup then sdkValidateBodyAux spent body.transactions
  else .error (.sdk .doubleSpendInBody)

/-- Rust slice expression xs[a..b]: defined when a is at most b and b
is at most the length, a panic (none) otherwise. -/
def rustSlice (xs : List α) (a b : Nat) : Option (List α) :=
  if a ≤ b ∧ b ≤ xs.length then some ((xs.drop a).take (b - a)) else none

/-- Per-transaction loop of validate_body in src/validation.rs,
including its slice expression spent_utxos[index..transaction.inputs.len()]
taken verbatim from the source (the end bound is the transaction's own
input count, not index plus that count). -/
def validateTxSlices (s : BitNamesState) (bh : Nat) (spent : List Output) :
    Nat → List Transaction → Option (Except Error Unit)
  | _, [] => some (.ok ())
  | index, tx :: rest =>
    match rustSlice spent index tx.inputs.length with
    | none => none
    | some slice =>
      match validate_transaction_pure s slice bh tx with
      | .error e => some (.error e)
      | .ok () => validateTxSlices s bh spent (index + tx.inputs.length) rest

/-- validate_body of src/validation.rs: authorizations, input
resolution (panicking on a missing input), the per-transaction pure
checks over slices, then the base sdk body validation. -/
def validate_body (s : BitNamesState) (bh : Nat) (body : Body) :
    Option (Except Error Nat) :=
  match verify_authorizations body with
  | .error e => some (.error e)
  | .ok () =>
    match resolveInputs s.utxos (flattenInputs body) with
    | none => none
    | some spent =>
      match validateTxSlices s bh spent 0 body.transactions with
      | none => none
      | some (.error e) => some (.error e)
      | some (.ok ()) => some (sdkValidateBody spent body)

/-- validate_transaction of src/validation.rs: the mempool predicate
against height best_block_height + 1; resolves inputs (panicking on a
missing one), runs the pure checks, then the base sdk rules. -/
def validate_transaction (s : BitNamesState) (tx : Transaction) :
    Option (Except Error Nat) :=
  match resolveInputs s.utxos tx.inputs with
  | none => none
  | some spent =>
    match validate_transaction_pure s spent (s.best_block_height + 1) tx with
    | .error e => some (.error e)
    | .ok () => some (sdkValidateTransaction spent tx)

/-- Removal of every input of a transaction from the utxo table
(the input loop of connect_body). -/
def deleteInputs (utxos : List (OutPoint × Output)) : List OutPoint → List (OutPoint × Output)
  | [] => utxos
  | i :: rest => deleteInputs (alDelete utxos i) rest

/-- Effect of connecting a single output at the given vout (the output
loop of connect_body): record custom data, then insert the UTXO. -/
def applyOutput (st : BitNamesState) (txid : Txid) (vout : Nat) (o : Output) :
    BitNamesState :=
  let op := OutPoint.regular txid vout
  let st1 :=
    match o.content with
    | .custom (.keyValue k v) =>
      { st with key_to_value := alPut st.key_to_value k v }
    | .custom (.reveal salt k) =>
      let c := blake2b_hmac k salt
      { st with
          key_to_commitment := alPut st.key_to_commitment k c,
          commitment_to_key := alPut st.commitment_to_key c k,
          key_to_value := alPut st.key_to_value k none }
    | .custom (.commitment c) =>
      { st with
          commitment_to_height := alPut st.commitment_to_height c st.best_block_height,
          commitment_to_outpoint := alPut st.commitment_to_outpoint c op }
    | .value _ => st
  { st1 with utxos := alPut st1.utxos op o }

/-- Output loop of connect_body over one transaction's outputs. -/
def applyOutputs (st : BitNamesState) (txid : Txid) : Nat → List Output → BitNamesState
  | _, [] => st
  | vout, o :: rest => applyOutputs (applyOutput st txid vout o) txid (vout + 1) rest

/-- Effect of connecting one transaction: delete its inputs, then
connect its outputs under its txid. -/
def applyTransaction (st : BitNamesState) (tx : Transaction) : BitNamesState :=
  applyOutputs { st with utxos := deleteInputs st.utxos tx.inputs } (hashTx tx) 0 tx.outputs

/-- Transaction loop of connect_body. -/
def applyTransactions (st : BitNamesState) : List Transaction → BitNamesState
  | [] => st
  | tx :: rest => applyTransactions (applyTransaction st tx) rest

/-- Expired commitments collected by connect_body: every entry of
commitment_to_height older than COMMITMENT_MAX_AGE at the current
best_block_height, in table order. -/
def expiredCommitments (st : BitNamesState) : List Commitment :=
  (st.commitment_to_height.filter fun p =>
    decide (st.best_block_height - p.2 > COMMITMENT_MAX_AGE)).map Prod.fst

/-- Expiry sweep of one commitment in connect_body: unlink its key
binding if present, then delete its UTXO and both registry entries;
an absent outpoint entry aborts with CommitmentNotFound. -/
def sweepOne (st : BitNamesState) (c : Commitment) : Except Error BitNamesState :=
  let st1 :=
    match alGet st.commitment_to_key c with
    | some k =>
      { st with
          key_to_commitment := alDelete st.key_to_commitment k,
          commitment_to_key := alDelete st.commitment_to_key c }
    | none => st
  match alGet st1.commitment_to_outpoint c with
  | none => .error (.bitNames (.commitmentNotFound c))
  | some op =>
    .ok { st1 with
            utxos := alDelete st1.utxos op,
            commitment_to_height := alDelete st1.commitment_to_height c,
            commitment_to_outpoint := alDelete st1.commitment_to_outpoint c }

/-- Expiry-sweep loop of connect_body over the collected expired list. -/
def sweepAll (st : BitNamesState) : List Commitment → Except Error BitNamesState
  | [] => .ok st
  | c :: rest =>
    match sweepOne st c with
    | .error e => .error e
    | .ok st1 => sweepAll st1 rest

/-- connect_body of src/validation.rs.  The outer Option is the panic
layer (a missing input panics inside validate_body).  On a returned
error the pair carries the observable state after the call: the write
transaction is dropped, so every table reverts to the pre-call state,
but best_block_height is a plain struct field incremented outside the
write transaction, so it keeps its bumped value when the error arises
after validation (in the expiry sweep). -/
def connect_body (s : BitNamesState) (body : Body) :
    Option (Option Error × BitNamesState) :=
  match validate_body s (s.best_block_height + 1) body with
  | none => none
  | some (.error e) => some (some e, s)
  | some (.ok _) =>
    let s2 := applyTransactions
      { s with best_block_height := s.best_block_height + 1 } body.transactions
    match sweepAll s2 (expiredCommitments s2) with
    | .error e => some (some e, { s with best_block_height := s.best_block_height + 1 })
    | .ok t => some (none, t)

/-- connect_deposits of src/validation.rs: insert externally
originated UTXOs. -/
def connect_deposits (s : BitNamesState) (deposits : List (OutPoint × Output)) :
    BitNamesState :=
  { s with utxos := deposits.foldl (fun u p => alPut u p.1 p.2) s.utxos }

/-- Fresh state as produced by BitNamesState::new: all tables empty,
best_block_height zero. -/
def initialState : BitNamesState := ⟨[], [], [], [], [], [], 0⟩

-- Concrete states, transactions and bodies used by the theorems below.

/-- Snapshot for the C1 tie-break counterexample: key 0 is registered
(key_to_value has an entry), bound to commitment 1 of height 5, and the
competing commitment blake2b_hmac 0 0 = 0 also has height 5. -/
def c1S : BitNamesState :=
  ⟨[(0, none)], [(1, 5), (0, 5)], [], [(0, 1)], [], [], 6⟩

/-- Spent UTXOs carrying the competing commitment 0. -/
def c1Spent : List Output := [⟨0, .custom (.commitment 0)⟩]

/-- Transaction revealing key 0 with salt 0, whose commitment is
blake2b_hmac 0 0 = 0. -/
def c1Tx : Transaction := ⟨[], [⟨0, .custom (.reveal 0 0)⟩], []⟩

/-- Snapshot for the C1 witness: as c1S, but the competing commitment
has height 6, strictly newer than the bound height 5. -/
def c1wS : BitNamesState :=
  ⟨[(0, none)], [(1, 5), (0, 6)], [], [(0, 1)], [], [], 7⟩

/-- Transaction for C5 spending an outpoint that is not in the utxo
table of the fresh state; its single authorization is valid for the
modelled scheme, so body validation reaches input resolution. -/
def c5Tx : Transaction :=
  ⟨[.deposit 0], [], [⟨7, Nat.pair 7 (hashTx ⟨[.deposit 0], [], []⟩)⟩]⟩

/-- Body for C5 containing only c5Tx. -/
def c5Body : Body := ⟨[c5Tx], []⟩

/-- State for C2: three value UTXOs to be spent by a two-transaction body. -/
def c2S : BitNamesState :=
  ⟨[], [], [], [], [], [(.deposit 0, ⟨5, .value 10⟩), (.deposit 1, ⟨5, .value 10⟩),
    (.deposit 2, ⟨5, .value 10⟩)], 0⟩

/-- First transaction of the C2 body: spends two UTXOs. -/
def c2Tx0 : Transaction :=
  ⟨[.deposit 0, .deposit 1], [⟨5, .value 1⟩],
    [⟨5, Nat.pair 5 (hashTx ⟨[.deposit 0, .deposit 1], [⟨5, .value 1⟩], []⟩)⟩,
     ⟨5, Nat.pair 5 (hashTx ⟨[.deposit 0, .deposit 1], [⟨5, .value 1⟩], []⟩)⟩]⟩

/-- Second transaction of the C2 body: spends one UTXO. -/
def c2Tx1 : Transaction :=
  ⟨[.deposit 2], [], [⟨5, Nat.pair 5 (hashTx ⟨[.deposit 2], [], []⟩)⟩]⟩

/-- Body for C2: transaction 0 has two inputs, transaction 1 has one. -/
def c2Body : Body := ⟨[c2Tx0, c2Tx1], []⟩

/-- Keyset half of spec invariant I2: commitment_to_height and
commitment_to_outpoint are defined on the same commitments. -/
def KeysAligned (st : BitNamesState) : Prop :=
  ∀ c, (alGet st.commitment_to_height c).isSome ↔ (alGet st.commitment_to_outpoint c).isSome

/-- State for the C4 counterexample: commitment 3 has a height entry
of 0 but no outpoint entry, and best_block_height is 1. -/
def c4S : BitNamesState := ⟨[], [(3, 0)], [], [], [], [], 1⟩

/-- Observable state after the failed connect of the C4 counterexample:
the tables of c4S, but best_block_height bumped to 2. -/
def c4Post : BitNamesState := ⟨[], [(3, 0)], [], [], [], [], 2⟩

/-- Body whose single transaction has one authorization but no inputs,
so body validation fails in the authorization check. -/
def c4wBody : Body := ⟨[⟨[], [], [⟨0, 0⟩]⟩], []⟩

/-- Snapshot for the C9 counterexample: commitment 7 was recorded at
height 0, stale at validation height 2. -/
def c9S : BitNamesState := ⟨[], [(7, 0)], [], [], [], [], 0⟩

/-- Spent UTXOs for the C9 counterexample: the stale commitment 7. -/
def c9Spent : List Output := [⟨0, .custom (.commitment 7)⟩]

/-- Transaction for C9 revealing key 1 with salt 0; its commitment
blake2b_hmac 1 0 = 2 matches no spent commitment. -/
def c9Tx : Transaction := ⟨[], [⟨0, .custom (.reveal 0 1)⟩], []⟩

/-- Snapshot for the C9 witness: commitments 5 and 2 both fresh. -/
def c9wS : BitNamesState := ⟨[], [(5, 0), (2, 0)], [], [], [], [], 0⟩

/-- Spent UTXOs for the C9 witness: two commitments; the reveal
matches the second one. -/
def c9wSpent : List Output := [⟨0, .custom (.commitment 5)⟩, ⟨0, .custom (.commitment 2)⟩]

/-- Snapshot for the C9 witness mismatch part: only commitment 5, fresh. -/
def c9vS : BitNamesState := ⟨[], [(5, 0)], [], [], [], [], 0⟩

/-- Spent UTXOs for the C9 witness mismatch part. -/
def c9vSpent : List Output := [⟨0, .custom (.commitment 5)⟩]

/-- Final state of a successful connect, or the input state if the
connect did not succeed; used to name concrete post-states. -/
def connectResult (s : BitNamesState) (body : Body) : BitNamesState :=
  match connect_body s body with
  | some (none, t) => t
  | _ => s

/-- State for the C6 witness, in-window part: commitment 0 recorded at
height 0 with its UTXO present, best_block_height 0. -/
def c6S : BitNamesState :=
  ⟨[], [(0, 0)], [], [], [], [(.deposit 0, ⟨1, .custom (.commitment 0)⟩)], 0⟩

/-- Transaction for the C6 witness spending the commitment UTXO and
revealing key 0 with salt 0 (blake2b_hmac 0 0 = 0). -/
def c6Tx : Transaction :=
  ⟨[.deposit 0], [⟨2, .custom (.reveal 0 0)⟩],
    [⟨9, Nat.pair 9 (hashTx ⟨[.deposit 0], [⟨2, .custom (.reveal 0 0)⟩], []⟩)⟩]⟩

/-- Body for the C6 witness. -/
def c6Body : Body := ⟨[c6Tx], []⟩

/-- State for the C6 witness, same-block part: one value deposit. -/
def c6bS : BitNamesState :=
  ⟨[], [], [], [], [], [(.deposit 0, ⟨1, .value 100⟩)], 0⟩

/-- Commitment-publishing transaction of the C6 same-block body. -/
def c6bTxC : Transaction :=
  ⟨[.deposit 0], [⟨1, .custom (.commitment 0)⟩],
    [⟨4, Nat.pair 4 (hashTx ⟨[.deposit 0], [⟨1, .custom (.commitment 0)⟩], []⟩)⟩]⟩

/-- Reveal transaction of the C6 same-block body, spending the
commitment output created by c6bTxC in the same block. -/
def c6bTxR : Transaction :=
  ⟨[.regular (hashTx c6bTxC) 0], [⟨2, .custom (.reveal 0 0)⟩],
    [⟨4, Nat.pair 4 (hashTx
      ⟨[.regular (hashTx c6bTxC) 0], [⟨2, .custom (.reveal 0 0)⟩], []⟩)⟩]⟩

/-- Same-block commit-and-reveal body for the C6 witness. -/
def c6bBody : Body := ⟨[c6bTxC, c6bTxR], []⟩

/-- State for the C6 witness, late part: commitment 0 recorded at
height 0, best_block_height 1, so the next block has height 2 and the
reveal is one block late. -/
def c6cS : BitNamesState :=
  ⟨[], [(0, 0)], [], [], [], [(.deposit 0, ⟨1, .custom (.commitment 0)⟩)], 1⟩

/-- Block-1 body of the C7 chain: publishes commitment 0. -/
def c7BodyA : Body := ⟨[c6bTxC], []⟩

/-- Block-2 body of the C7 chain: spends the commitment UTXO with a
matching reveal, inside the window. -/
def c7BodyB : Body := ⟨[c6bTxR], []⟩

/-- State after connecting block 1 of the C7 chain. -/
def c7s2 : BitNamesState := connectResult c6bS c7BodyA

/-- State after connecting block 2 of the C7 chain. -/
def c7t : BitNamesState := connectResult c7s2 c7BodyB

/-- State for the C8 witness: commitment 3 (recorded at height 0, with
UTXO at Deposit 5) is bound to key 4 whose value some 9 is published;
at best_block_height 1 the next connect makes the commitment 2 blocks
old, beyond COMMITMENT_MAX_AGE. -/
def c8S : BitNamesState :=
  ⟨[(4, some 9)], [(3, 0)], [(3, .deposit 5)], [(4, 3)], [(3, 4)],
    [(.deposit 5, ⟨1, .custom (.commitment 3)⟩)], 1⟩

/-- Intermediate state of the C8 witness connect (empty body, height
bumped to 2), on which the expiry sweep runs. -/
def c8U : BitNamesState :=
  ⟨[(4, some 9)], [(3, 0)], [(3, .deposit 5)], [(4, 3)], [(3, 4)],
    [(.deposit 5, ⟨1, .custom (.commitment 3)⟩)], 2⟩

/-- Final state of the C8 witness connect. -/
def c8T : BitNamesState := connectResult c8S ⟨[], []⟩

/-- Intermediate state of the C3 witness connect: height bumped and
the reveal transaction applied, before the expiry sweep. -/
def c3U : BitNamesState :=
  applyTransactions { c6S with best_block_height := c6S.best_block_height + 1 }
    c6Body.transactions

-- END CONCRETE


/-- Decidable equality for Except results, used to evaluate the
embedded validators on concrete inputs. -/
instance [DecidableEq ε] [DecidableEq α] : DecidableEq (Except ε α) := fun a b =>
  match a, b with
  | .ok x, .ok y =>
    if h : x = y then isTrue (by rw [h]) else isFalse (by intro hh; cases hh; exact h rfl)
  | .error x, .error y =>
    if h : x = y then isTrue (by rw [h]) else isFalse (by intro hh; cases hh; exact h rfl)
  | .ok _, .error _ => isFalse (by intro hh; cases hh)
  | .error _, .ok _ => isFalse (by intro hh; cases hh)

theorem alGet_alPut_self [DecidableEq κ] (l : List (κ × ν)) (k : κ) (v : ν) :
    alGet (alPut l k v) k = some v := by
  induction l with
  | nil => simp [alPut, alGet]
  | cons p rest ih =>
    by_cases h : p.1 = k
    · simp [alPut, h, alGet]
    · simp [alPut, h, alGet, ih]

theorem alGet_alPut_ne [DecidableEq κ] (l : List (κ × ν)) (k k' : κ) (v : ν)
    (h : k' ≠ k) : alGet (alPut l k v) k' = alGet l k' := by
  have h' : k ≠ k' := fun hh => h hh.symm
  induction l with
  | nil => simp [alPut, alGet, h']
  | cons p rest ih =>
    by_cases hp : p.1 = k
    · subst hp
      simp [alPut, alGet, h']
    · simp only [alPut, if_neg hp]
      by_cases hq : p.1 = k'
      · simp [alGet, hq]
      · simp [alGet, hq, ih]

theorem alGet_alDelete_self [DecidableEq κ] (l : List (κ × ν)) (k : κ) :
    alGet (alDelete l k) k = none := by
  induction l with
  | nil => simp [alDelete, alGet]
  | cons p rest ih =>
    by_cases h : p.1 = k
    · simp [alDelete, h, ih]
    · simp [alDelete, h, alGet, ih]

theorem alGet_alDelete_ne [DecidableEq κ] (l : List (κ × ν)) (k k' : κ)
    (h : k' ≠ k) : alGet (alDelete l k) k' = alGet l k' := by
  have h' : k ≠ k' := fun hh => h hh.symm
  induction l with
  | nil => simp [alDelete]
  | cons p rest ih =>
    by_cases hp : p.1 = k
    · simp [alDelete, hp, alGet, h', ih]
    · simp only [alDelete, if_neg hp]
      by_cases hq : p.1 = k'
      · simp [alGet, hq]
      · simp [alGet, hq, ih]

theorem alGet_alDelete_some [DecidableEq κ] (l : List (κ × ν)) (k k' : κ) (v : ν)
    (h : alGet (alDelete l k) k' = some v) : alGet l k' = some v := by
  by_cases hk : k' = k
  · rw [hk, alGet_alDelete_self] at h; cases h
  · rwa [alGet_alDelete_ne l k k' hk] at h

theorem alGet_mem [DecidableEq κ] (l : List (κ × ν)) (k : κ) (v : ν)
    (h : alGet l k = some v) : (k, v) ∈ l := by
  induction l with
  | nil => cases h
  | cons p rest ih =>
    by_cases hp : p.1 = k
    · simp only [alGet, if_pos hp] at h
      cases h
      subst hp
      exact List.mem_cons_self _ _
    · simp only [alGet, if_neg hp] at h
      exact List.mem_cons_of_mem _ (ih h)

/-- Key uniqueness of an association list, true of every list that
models a heed database. -/
def NodupKeys (l : List (κ × ν)) : Prop := (l.map Prod.fst).Nodup

theorem nodupKeys_alPut [DecidableEq κ] (l : List (κ × ν)) (k : κ) (v : ν)
    (h : NodupKeys l) : NodupKeys (alPut l k v) := by
  induction l with
  | nil => simp [alPut, NodupKeys]
  | cons p rest ih =>
    unfold NodupKeys at h
    simp only [List.map_cons, List.nodup_cons] at h
    by_cases hp : p.1 = k
    · unfold NodupKeys
      simp only [alPut, hp, if_pos, List.map_cons, List.nodup_cons]
      exact ⟨hp ▸ h.1, h.2⟩
    · unfold NodupKeys
      simp only [alPut, hp, if_neg, not_false_iff, List.map_cons, List.nodup_cons]
      refine ⟨?_, ih h.2⟩
      intro hmem
      have : ∀ m : List (κ × ν), p.1 ∈ (alPut m k v).map Prod.fst →
          p.1 ∈ m.map Prod.fst ∨ p.1 = k := by
        intro m
        induction m with
        | nil => simp [alPut]
        | cons q qrest qih =>
          by_cases hq : q.1 = k
          · simp only [alPut, hq, if_pos, List.map_cons, List.mem_cons]
            intro hmm
            rcases hmm with hmm | hmm
            · right; exact hmm
            · left; simp [hmm]
          · simp only [alPut, hq, if_neg, not_false_iff, List.map_cons, List.mem_cons]
            intro hmm
            rcases hmm with hmm | hmm
            · left; simp [hmm]
            · rcases qih hmm with hh | hh
              · left; right; exact hh
              · right; exact hh
      rcases this rest hmem with hh | hh
      · exact h.1 hh
      · exact hp hh

/-- C1, counterexample.  The claim says a reveal whose commitment
height equals the bound commitment's height is rejected with
KeyAlreadyRegistered.  In the code the check is strict
(prev_commitment_height < commitment_height), so at equal heights
(both 5 here) validation succeeds: the new reveal is accepted. -/
theorem C1_equal_heights_accepted :
    alGet c1S.key_to_value 0 = some none ∧
    alGet c1S.key_to_commitment 0 = some 1 ∧
    alGet c1S.commitment_to_height 1 = some 5 ∧
    alGet c1S.commitment_to_height (blake2b_hmac 0 0) = some 5 ∧
    validate_transaction_pure c1S c1Spent 6 c1Tx = .ok () := by
  exact ⟨by decide, by decide, by decide, by decide, by decide⟩

/-- C1, amended.  For a transaction whose single output reveals key
with the stated salt, when the spent commitments pass the freshness
check, the reveal's commitment is among them, the key is registered,
prev is the height of the key's bound commitment and curr the height
of the reveal's own commitment, validation fails with
KeyAlreadyRegistered exactly when prev < curr (strictly); at equal or
lower height the reveal is accepted. -/
theorem C1_tiebreak (s : BitNamesState) (spent : List Output) (bh : Nat)
    (tx : Transaction) (a : Address) (salt : Nat) (key : Key) (cPrev : Commitment)
    (prev curr : Nat)
    (hout : tx.outputs = [⟨a, .custom (.reveal salt key)⟩])
    (hfresh : checkFreshness s bh (spentCommitments spent) = .ok ())
    (hmem : blake2b_hmac key salt ∈ spentCommitments spent)
    (hreg : (alGet s.key_to_value key).isSome = true)
    (hktc : alGet s.key_to_commitment key = some cPrev)
    (hprev : alGet s.commitment_to_height cPrev = some prev)
    (hcurr : alGet s.commitment_to_height (blake2b_hmac key salt) = some curr) :
    validate_transaction_pure s spent bh tx =
      if prev < curr then .error (.bitNames (.keyAlreadyRegistered key prev curr))
      else .ok () := by
  unfold validate_transaction_pure
  rw [hfresh, hout]
  simp only [checkOutputs, hmem, if_pos, hreg, if_true, get_commitment_height, hcurr,
    get_key_height, hktc, hprev]

/-- C1, witness for the amended theorem: with prev = 5 and curr = 6
the strict comparison fires and validation fails with
KeyAlreadyRegistered. -/
theorem C1_tiebreak_witness :
    validate_transaction_pure c1wS c1Spent 7 c1Tx =
      .error (.bitNames (.keyAlreadyRegistered 0 5 6)) := by
  have h := C1_tiebreak c1wS c1Spent 7 c1Tx 0 0 0 1 5 6 (by decide) (by decide)
    (by decide) (by decide) (by decide) (by decide) (by decide)
  rw [h]
  decide

/-- C5, the code at the failing input.  The claim (and the spec) say a
missing input makes validate_body, connect_body and
validate_transaction return an UnknownOutpoint error.  In the code the
looked-up Option outputs are collected and unwrapped
(collect followed by unwrap in validate_body and validate_transaction),
so a missing input panics instead of returning an error — and the
Error enum of validation.rs has no UnknownOutpoint variant at all.
Here the spent outpoint Deposit 0 is absent from the utxo table and
all three entry points panic (modelled as none). -/
theorem C5_missing_input_panics :
    alGet initialState.utxos (.deposit 0) = none ∧
    validate_transaction initialState c5Tx = none ∧
    validate_body initialState 1 c5Body = none ∧
    connect_body initialState c5Body = none := by
  exact ⟨by decide, by decide, by decide, by decide⟩

/-- C2, the code at the failing input.  The claim (and the spec) say
each transaction is validated against its own contiguous slice of the
flattened spent-UTXO vector.  The source slices
spent_utxos[index..transaction.inputs.len()]: the end bound is the
transaction's own input count instead of index plus that count, so the
claimed slicing only happens for the first transaction.  Here all
inputs of a two-transaction body resolve (first conjunct pair), yet
for the second transaction the bounds become 2..1 and the Rust slice
expression panics, so validate_body and connect_body panic (none)
instead of validating the claimed slice spent_utxos[2..3]. -/
theorem C2_slice_bug_panics :
    verify_authorizations c2Body = .ok () ∧
    resolveInputs c2S.utxos (flattenInputs c2Body) =
      some [⟨5, .value 10⟩, ⟨5, .value 10⟩, ⟨5, .value 10⟩] ∧
    rustSlice ([⟨5, .value 10⟩, ⟨5, .value 10⟩, ⟨5, .value 10⟩] : List Output) 2 1 = none ∧
    validate_body c2S 1 c2Body = none ∧
    connect_body c2S c2Body = none := by
  exact ⟨by decide, by decide, by decide, by decide, by decide⟩

theorem alGet_isSome_iff_mem [DecidableEq κ] (l : List (κ × ν)) (k : κ) :
    (alGet l k).isSome ↔ k ∈ l.map Prod.fst := by
  induction l with
  | nil => simp [alGet]
  | cons p rest ih =>
    by_cases hp : p.1 = k
    · simp [alGet, hp]
    · simp only [alGet, if_neg hp, List.map_cons, List.mem_cons]
      rw [ih]
      constructor
      · intro h; right; exact h
      · intro h
        rcases h with h | h
        · exact absurd h.symm hp
        · exact h

theorem applyOutput_best (st : BitNamesState) (txid : Txid) (vout : Nat) (o : Output) :
    (applyOutput st txid vout o).best_block_height = st.best_block_height := by
  cases hc : o.content with
  | value v => simp [applyOutput, hc]
  | custom b => cases b <;> simp [applyOutput, hc]

theorem applyOutputs_best (outs : List Output) : ∀ (st : BitNamesState) (txid vout : Nat),
    (applyOutputs st txid vout outs).best_block_height = st.best_block_height := by
  induction outs with
  | nil => intro st txid vout; rfl
  | cons o rest ih =>
    intro st txid vout
    simp only [applyOutputs]
    rw [ih, applyOutput_best]

theorem applyTransaction_best (st : BitNamesState) (tx : Transaction) :
    (applyTransaction st tx).best_block_height = st.best_block_height := by
  unfold applyTransaction
  rw [applyOutputs_best]

theorem applyTransactions_best (txs : List Transaction) : ∀ st : BitNamesState,
    (applyTransactions st txs).best_block_height = st.best_block_height := by
  induction txs with
  | nil => intro st; rfl
  | cons tx rest ih =>
    intro st
    simp only [applyTransactions]
    rw [ih, applyTransaction_best]

theorem sweepOne_best (st : BitNamesState) (c : Commitment) (t : BitNamesState)
    (h : sweepOne st c = .ok t) : t.best_block_height = st.best_block_height := by
  cases h1 : alGet st.commitment_to_key c with
  | none =>
    simp only [sweepOne, h1] at h
    cases h2 : alGet st.commitment_to_outpoint c with
    | none => rw [h2] at h; cases h
    | some op => rw [h2] at h; cases h; rfl
  | some k =>
    simp only [sweepOne, h1] at h
    cases h2 : alGet st.commitment_to_outpoint c with
    | none => rw [h2] at h; cases h
    | some op => rw [h2] at h; cases h; rfl

theorem sweepAll_best (E : List Commitment) : ∀ (st t : BitNamesState),
    sweepAll st E = .ok t → t.best_block_height = st.best_block_height := by
  induction E with
  | nil => intro st t h; cases h; rfl
  | cons c rest ih =>
    intro st t h
    cases h1 : sweepOne st c with
    | error e =>
      simp only [sweepAll, h1] at h
      exact Except.noConfusion h
    | ok st1 =>
      simp only [sweepAll, h1] at h
      rw [ih st1 t h, sweepOne_best st c st1 h1]

theorem applyOutput_keysAligned (st : BitNamesState) (txid vout : Nat) (o : Output)
    (h : KeysAligned st) : KeysAligned (applyOutput st txid vout o) := by
  intro c
  cases hc : o.content with
  | value v => simp only [applyOutput, hc]; exact h c
  | custom b =>
    cases b with
    | commitment c0 =>
      by_cases hcc : c = c0
      · subst hcc
        simp only [applyOutput, hc, alGet_alPut_self]
        simp
      · simp only [applyOutput, hc, alGet_alPut_ne _ _ _ _ hcc]
        exact h c
    | reveal s k => simp only [applyOutput, hc]; exact h c
    | keyValue k v => simp only [applyOutput, hc]; exact h c

theorem applyOutputs_keysAligned (outs : List Output) : ∀ (st : BitNamesState) (txid vout : Nat),
    KeysAligned st → KeysAligned (applyOutputs st txid vout outs) := by
  induction outs with
  | nil => intro st txid vout h; exact h
  | cons o rest ih =>
    intro st txid vout h
    exact ih _ _ _ (applyOutput_keysAligned st txid vout o h)

theorem applyTransaction_keysAligned (st : BitNamesState) (tx : Transaction)
    (h : KeysAligned st) : KeysAligned (applyTransaction st tx) := by
  unfold applyTransaction
  exact applyOutputs_keysAligned _ _ _ _ h

theorem applyTransactions_keysAligned (txs : List Transaction) : ∀ st : BitNamesState,
    KeysAligned st → KeysAligned (applyTransactions st txs) := by
  induction txs with
  | nil => intro st h; exact h
  | cons tx rest ih =>
    intro st h
    exact ih _ (applyTransaction_keysAligned st tx h)

theorem applyOutput_nodup_cth (st : BitNamesState) (txid vout : Nat) (o : Output)
    (h : NodupKeys st.commitment_to_height) :
    NodupKeys (applyOutput st txid vout o).commitment_to_height := by
  cases hc : o.content with
  | value v => simp only [applyOutput, hc]; exact h
  | custom b =>
    cases b with
    | commitment c0 => simp only [applyOutput, hc]; exact nodupKeys_alPut _ _ _ h
    | reveal s k => simp only [applyOutput, hc]; exact h
    | keyValue k v => simp only [applyOutput, hc]; exact h

theorem applyOutputs_nodup_cth (outs : List Output) : ∀ (st : BitNamesState) (txid vout : Nat),
    NodupKeys st.commitment_to_height →
    NodupKeys (applyOutputs st txid vout outs).commitment_to_height := by
  induction outs with
  | nil => intro st txid vout h; exact h
  | cons o rest ih =>
    intro st txid vout h
    exact ih _ _ _ (applyOutput_nodup_cth st txid vout o h)

theorem applyTransactions_nodup_cth (txs : List Transaction) : ∀ st : BitNamesState,
    NodupKeys st.commitment_to_height →
    NodupKeys (applyTransactions st txs).commitment_to_height := by
  induction txs with
  | nil => intro st h; exact h
  | cons tx rest ih =>
    intro st h
    exact ih _ (applyOutputs_nodup_cth _ _ _ _ h)

theorem expiredCommitments_nodup (st : BitNamesState)
    (h : NodupKeys st.commitment_to_height) : (expiredCommitments st).Nodup := by
  unfold expiredCommitments
  unfold NodupKeys at h
  have hsub : List.Sublist
      ((st.commitment_to_height.filter fun p =>
        decide (st.best_block_height - p.2 > COMMITMENT_MAX_AGE)).map Prod.fst)
      (st.commitment_to_height.map Prod.fst) :=
    (List.filter_sublist _).map Prod.fst
  exact h.sublist hsub

theorem expiredCommitments_mem_cth (st : BitNamesState) (c : Commitment)
    (h : c ∈ expiredCommitments st) : (alGet st.commitment_to_height c).isSome := by
  rw [alGet_isSome_iff_mem]
  unfold expiredCommitments at h
  rcases List.mem_map.mp h with ⟨p, hp, hpc⟩
  exact hpc ▸ List.mem_map_of_mem Prod.fst (List.mem_of_mem_filter hp)

theorem sweepAll_total (E : List Commitment) : ∀ st : BitNamesState, E.Nodup →
    (∀ c ∈ E, (alGet st.commitment_to_outpoint c).isSome) →
    ∃ t, sweepAll st E = .ok t := by
  induction E with
  | nil => intro st _ _; exact ⟨st, rfl⟩
  | cons c rest ih =>
    intro st hnd hall
    have hc : (alGet st.commitment_to_outpoint c).isSome := hall c (List.mem_cons_self _ _)
    rcases Option.isSome_iff_exists.mp hc with ⟨op, hop⟩
    have hnd' := (List.nodup_cons.mp hnd).2
    have hne := (List.nodup_cons.mp hnd).1
    cases h1 : alGet st.commitment_to_key c with
    | none =>
      simp only [sweepOne, h1, sweepAll, hop]
      apply ih
      · exact hnd'
      · intro c' hc'
        have hcc : c' ≠ c := fun hh => hne (hh ▸ hc')
        simp only [alGet_alDelete_ne _ _ _ hcc]
        exact hall c' (List.mem_cons_of_mem _ hc')
    | some k =>
      simp only [sweepOne, h1, sweepAll, hop]
      apply ih
      · exact hnd'
      · intro c' hc'
        have hcc : c' ≠ c := fun hh => hne (hh ▸ hc')
        simp only [alGet_alDelete_ne _ _ _ hcc]
        exact hall c' (List.mem_cons_of_mem _ hc')

/-- C4, counterexample.  The claim says a failed connect_body leaves
all seven maps and the best_block_height counter unchanged.  From the
state c4S (commitment 3 has a height entry but no outpoint entry,
best_block_height 1), connecting the empty body passes validation,
increments best_block_height, and then the expiry sweep fails with
CommitmentNotFound — returning an error while the observable state has
best_block_height 2: the counter mutated although the connect failed,
because the source increments the plain struct field outside the
aborted write transaction. -/
theorem C4_failed_connect_mutates_height :
    connect_body c4S ⟨[], []⟩ =
      some (some (.bitNames (.commitmentNotFound 3)), c4Post) ∧
    c4S.best_block_height = 1 ∧
    c4Post.best_block_height = 2 ∧
    c4Post ≠ c4S := by
  exact ⟨by decide, by decide, by decide, by decide⟩

/-- C4, amended.  When connect_body returns an error, the seven tables
always revert to the pre-call state (the write transaction is
dropped); if additionally the pre-state satisfies the keyset half of
invariant I2 (true of every reachable state), the whole observable
state including best_block_height is unchanged, because the expiry
sweep then cannot fail and validation errors precede the height
increment.  When connect_body succeeds, the mutations are applied:
in particular best_block_height advances by one. -/
theorem C4_atomicity :
    (∀ (s : BitNamesState) (body : Body) (e : Error) (t : BitNamesState),
      connect_body s body = some (some e, t) →
        t.key_to_value = s.key_to_value ∧
        t.commitment_to_height = s.commitment_to_height ∧
        t.commitment_to_outpoint = s.commitment_to_outpoint ∧
        t.key_to_commitment = s.key_to_commitment ∧
        t.commitment_to_key = s.commitment_to_key ∧
        t.utxos = s.utxos) ∧
    (∀ (s : BitNamesState) (body : Body) (e : Error) (t : BitNamesState),
      connect_body s body = some (some e, t) → KeysAligned s →
      NodupKeys s.commitment_to_height → t = s) ∧
    (∀ (s : BitNamesState) (body : Body) (t : BitNamesState),
      connect_body s body = some (none, t) →
        t.best_block_height = s.best_block_height + 1) := by
  refine ⟨?_, ?_, ?_⟩
  · intro s body e t h
    cases hv : validate_body s (s.best_block_height + 1) body with
    | none =>
      simp only [connect_body, hv] at h
      exact Option.noConfusion h
    | some r =>
      cases r with
      | error e' =>
        simp only [connect_body, hv, Option.some.injEq, Prod.mk.injEq] at h
        rw [← h.2]
        exact ⟨rfl, rfl, rfl, rfl, rfl, rfl⟩
      | ok fee =>
        simp only [connect_body, hv] at h
        cases hs : sweepAll
            (applyTransactions { s with best_block_height := s.best_block_height + 1 }
              body.transactions)
            (expiredCommitments
              (applyTransactions { s with best_block_height := s.best_block_height + 1 }
                body.transactions)) with
        | error e' =>
          rw [hs] at h
          simp only [Option.some.injEq, Prod.mk.injEq] at h
          rw [← h.2]
          exact ⟨rfl, rfl, rfl, rfl, rfl, rfl⟩
        | ok t' =>
          rw [hs] at h
          simp at h
  · intro s body e t h hKA hND
    cases hv : validate_body s (s.best_block_height + 1) body with
    | none =>
      simp only [connect_body, hv] at h
      exact Option.noConfusion h
    | some r =>
      cases r with
      | error e' =>
        simp only [connect_body, hv, Option.some.injEq, Prod.mk.injEq] at h
        exact h.2.symm
      | ok fee =>
        have hKA2 : KeysAligned
            (applyTransactions { s with best_block_height := s.best_block_height + 1 }
              body.transactions) :=
          applyTransactions_keysAligned _ _ hKA
        have hND2 : NodupKeys
            (applyTransactions { s with best_block_height := s.best_block_height + 1 }
              body.transactions).commitment_to_height :=
          applyTransactions_nodup_cth _ _ hND
        rcases sweepAll_total _ _ (expiredCommitments_nodup _ hND2)
            (fun c hc => (hKA2 c).mp (expiredCommitments_mem_cth _ c hc)) with ⟨t', ht'⟩
        simp only [connect_body, hv, ht'] at h
        simp at h
  · intro s body t h
    cases hv : validate_body s (s.best_block_height + 1) body with
    | none =>
      simp only [connect_body, hv] at h
      exact Option.noConfusion h
    | some r =>
      cases r with
      | error e' => simp only [connect_body, hv] at h; simp at h
      | ok fee =>
        simp only [connect_body, hv] at h
        cases hs : sweepAll
            (applyTransactions { s with best_block_height := s.best_block_height + 1 }
              body.transactions)
            (expiredCommitments
              (applyTransactions { s with best_block_height := s.best_block_height + 1 }
                body.transactions)) with
        | error e' =>
          rw [hs] at h
          simp at h
        | ok t' =>
          rw [hs] at h
          simp only [Option.some.injEq, Prod.mk.injEq] at h
          rw [← h.2]
          rw [sweepAll_best _ _ _ hs, applyTransactions_best]

/-- C4, witness.  The map-preservation part applied to the
counterexample connect, and the full-preservation part applied to an
authorization failure from the fresh state, which satisfies the keyset
hypothesis. -/
theorem C4_atomicity_witness :
    connect_body c4S ⟨[], []⟩ =
      some (some (.bitNames (.commitmentNotFound 3)), c4Post) ∧
    c4Post.utxos = c4S.utxos ∧
    connect_body initialState c4wBody = some (some Error.authorization, initialState) ∧
    initialState = initialState := by
  have hc : connect_body c4S ⟨[], []⟩ =
      some (some (.bitNames (.commitmentNotFound 3)), c4Post) := by decide
  have hw : connect_body initialState c4wBody =
      some (some Error.authorization, initialState) := by decide
  refine ⟨hc, (C4_atomicity.1 c4S ⟨[], []⟩ _ c4Post hc).2.2.2.2.2, hw, ?_⟩
  exact C4_atomicity.2.1 initialState c4wBody Error.authorization initialState hw
    (fun c => by simp [initialState, alGet]) (by simp [initialState, NodupKeys])

theorem get_commitment_height_error (s : BitNamesState) (c : Commitment) (e : Error)
    (h : get_commitment_height s c = .error e) : e = .bitNames (.commitmentNotFound c) := by
  unfold get_commitment_height at h
  cases hg : alGet s.commitment_to_height c with
  | some v => rw [hg] at h; cases h
  | none =>
    rw [hg] at h
    cases h
    rfl

theorem get_key_height_error (s : BitNamesState) (k : Key) (e : Error)
    (h : get_key_height s k = .error e) :
    (∃ c, e = .bitNames (.commitmentNotFound c)) ∨ e = .bitNames (.keyNotFound k) := by
  unfold get_key_height at h
  cases hg : alGet s.key_to_commitment k with
  | none =>
    simp only [hg] at h
    cases h
    right
    rfl
  | some c =>
    simp only [hg] at h
    cases hh : alGet s.commitment_to_height c with
    | none =>
      simp only [hh] at h
      cases h
      exact Or.inl ⟨c, rfl⟩
    | some v =>
      simp only [hh] at h
      cases h

theorem checkFreshness_error (s : BitNamesState) (bh : Nat) (cs : List Commitment) (e : Error)
    (h : checkFreshness s bh cs = .error e) :
    (∃ c, e = .bitNames (.commitmentNotFound c)) ∨
    (∃ c n, e = .bitNames (.revealTooLate c n)) := by
  induction cs with
  | nil => cases h
  | cons c rest ih =>
    cases hg : get_commitment_height s c with
    | error e0 =>
      simp only [checkFreshness, hg] at h
      cases h
      exact Or.inl ⟨c, get_commitment_height_error s c _ hg⟩
    | ok hh =>
      simp only [checkFreshness, hg] at h
      by_cases hl : bh - hh > COMMITMENT_MAX_AGE
      · rw [if_pos hl] at h
        cases h
        exact Or.inr ⟨c, bh - hh - COMMITMENT_MAX_AGE, rfl⟩
      · rw [if_neg hl] at h
        exact ih h

theorem checkOutputs_inc_inv (s : BitNamesState) (sc : List Commitment) (sk : List Key)
    (key : Key) (salt : Nat) (c : Commitment) :
    ∀ outs : List Output,
      checkOutputs s sc sk outs = .error (.bitNames (.invalidNameCommitment key salt c)) →
      c = blake2b_hmac key salt ∧ c ∉ sc ∧
        ∃ a, (⟨a, .custom (.reveal salt key)⟩ : Output) ∈ outs := by
  intro outs
  induction outs with
  | nil => intro h; cases h
  | cons o rest ih =>
    intro h
    have hrest : checkOutputs s sc sk rest =
        .error (.bitNames (.invalidNameCommitment key salt c)) →
        c = blake2b_hmac key salt ∧ c ∉ sc ∧
          ∃ a, (⟨a, .custom (.reveal salt key)⟩ : Output) ∈ o :: rest := by
      intro hr
      rcases ih hr with ⟨h1, h2, a, ha⟩
      exact ⟨h1, h2, a, List.mem_cons_of_mem _ ha⟩
    cases hc : o.content with
    | value v =>
      simp only [checkOutputs, hc] at h
      exact hrest h
    | custom b =>
      cases b with
      | commitment c0 =>
        simp only [checkOutputs, hc] at h
        exact hrest h
      | keyValue k0 v0 =>
        simp only [checkOutputs, hc] at h
        by_cases hk : k0 ∈ sk
        · rw [if_pos hk] at h
          exact hrest h
        · rw [if_neg hk] at h
          cases h
      | reveal salt' key' =>
        simp only [checkOutputs, hc] at h
        by_cases hin : blake2b_hmac key' salt' ∈ sc
        · rw [if_pos hin] at h
          by_cases hreg : (alGet s.key_to_value key').isSome
          · rw [if_pos hreg] at h
            cases hg : get_commitment_height s (blake2b_hmac key' salt') with
            | error e =>
              simp only [hg] at h
              cases h
              cases get_commitment_height_error s _ _ hg
            | ok ch =>
              simp only [hg] at h
              cases hk : get_key_height s key' with
              | error e =>
                simp only [hk] at h
                cases h
                rcases get_key_height_error s _ _ hk with ⟨c', hc'⟩ | hc' <;> cases hc'
              | ok ph =>
                simp only [hk] at h
                by_cases hlt : ph < ch
                · rw [if_pos hlt] at h
                  cases h
                · rw [if_neg hlt] at h
                  exact hrest h
          · rw [if_neg hreg] at h
            exact hrest h
        · rw [if_neg hin] at h
          simp only [Except.error.injEq, Error.bitNames.injEq,
            BitNamesError.invalidNameCommitment.injEq] at h
          rcases h with ⟨hkey, hsalt, hcom⟩
          subst hkey
          subst hsalt
          subst hcom
          refine ⟨rfl, hin, o.address, ?_⟩
          have ho : (⟨o.address, o.content⟩ : Output) = o := rfl
          rw [hc] at ho
          rw [ho]
          exact List.mem_cons_self _ _

theorem checkOutputs_ok_reveals (s : BitNamesState) (sc : List Commitment) (sk : List Key) :
    ∀ outs : List Output, checkOutputs s sc sk outs = .ok () →
      ∀ o ∈ outs, ∀ salt key, o.content = .custom (.reveal salt key) →
        blake2b_hmac key salt ∈ sc := by
  intro outs
  induction outs with
  | nil => intro _ o ho; cases ho
  | cons o rest ih =>
    intro h o' ho' salt key hco
    have hnext : checkOutputs s sc sk rest = .ok () → o' ∈ rest →
        blake2b_hmac key salt ∈ sc := fun hr hm => ih hr o' hm salt key hco
    cases hc : o.content with
    | value v =>
      simp only [checkOutputs, hc] at h
      rcases List.mem_cons.mp ho' with hh | hh
      · subst hh; rw [hc] at hco; cases hco
      · exact hnext h hh
    | custom b =>
      cases b with
      | commitment c0 =>
        simp only [checkOutputs, hc] at h
        rcases List.mem_cons.mp ho' with hh | hh
        · subst hh; rw [hc] at hco; cases hco
        · exact hnext h hh
      | keyValue k0 v0 =>
        simp only [checkOutputs, hc] at h
        by_cases hk : k0 ∈ sk
        · rw [if_pos hk] at h
          rcases List.mem_cons.mp ho' with hh | hh
          · subst hh; rw [hc] at hco; cases hco
          · exact hnext h hh
        · rw [if_neg hk] at h; cases h
      | reveal salt' key' =>
        simp only [checkOutputs, hc] at h
        by_cases hin : blake2b_hmac key' salt' ∈ sc
        · rw [if_pos hin] at h
          have hrec : checkOutputs s sc sk rest = .ok () := by
            by_cases hreg : (alGet s.key_to_value key').isSome
            · rw [if_pos hreg] at h
              cases hg : get_commitment_height s (blake2b_hmac key' salt') with
              | error e => simp only [hg] at h; cases h
              | ok ch =>
                simp only [hg] at h
                cases hk : get_key_height s key' with
                | error e => simp only [hk] at h; cases h
                | ok ph =>
                  simp only [hk] at h
                  by_cases hlt : ph < ch
                  · rw [if_pos hlt] at h; cases h
                  · rw [if_neg hlt] at h; exact h
            · rw [if_neg hreg] at h; exact h
          rcases List.mem_cons.mp ho' with hh | hh
          · subst hh
            rw [hc] at hco
            cases hco
            exact hin
          · exact hnext hrec hh
        · rw [if_neg hin] at h; cases h

theorem checkOutputs_ok_keyvalues (s : BitNamesState) (sc : List Commitment) (sk : List Key) :
    ∀ outs : List Output, checkOutputs s sc sk outs = .ok () →
      ∀ o ∈ outs, ∀ k v, o.content = .custom (.keyValue k v) → k ∈ sk := by
  intro outs
  induction outs with
  | nil => intro _ o ho; cases ho
  | cons o rest ih =>
    intro h o' ho' k v hco
    have hnext : checkOutputs s sc sk rest = .ok () → o' ∈ rest → k ∈ sk :=
      fun hr hm => ih hr o' hm k v hco
    cases hc : o.content with
    | value w =>
      simp only [checkOutputs, hc] at h
      rcases List.mem_cons.mp ho' with hh | hh
      · subst hh; rw [hc] at hco; cases hco
      · exact hnext h hh
    | custom b =>
      cases b with
      | commitment c0 =>
        simp only [checkOutputs, hc] at h
        rcases List.mem_cons.mp ho' with hh | hh
        · subst hh; rw [hc] at hco; cases hco
        · exact hnext h hh
      | keyValue k0 v0 =>
        simp only [checkOutputs, hc] at h
        by_cases hk : k0 ∈ sk
        · rw [if_pos hk] at h
          rcases List.mem_cons.mp ho' with hh | hh
          · subst hh
            rw [hc] at hco
            cases hco
            exact hk
          · exact hnext h hh
        · rw [if_neg hk] at h; cases h
      | reveal salt' key' =>
        simp only [checkOutputs, hc] at h
        by_cases hin : blake2b_hmac key' salt' ∈ sc
        · rw [if_pos hin] at h
          have hrec : checkOutputs s sc sk rest = .ok () := by
            by_cases hreg : (alGet s.key_to_value key').isSome
            · rw [if_pos hreg] at h
              cases hg : get_commitment_height s (blake2b_hmac key' salt') with
              | error e => simp only [hg] at h; cases h
              | ok ch =>
                simp only [hg] at h
                cases hkh : get_key_height s key' with
                | error e => simp only [hkh] at h; cases h
                | ok ph =>
                  simp only [hkh] at h
                  by_cases hlt : ph < ch
                  · rw [if_pos hlt] at h; cases h
                  · rw [if_neg hlt] at h; exact h
            · rw [if_neg hreg] at h; exact h
          rcases List.mem_cons.mp ho' with hh | hh
          · subst hh; rw [hc] at hco; cases hco
          · exact hnext hrec hh
        · rw [if_neg hin] at h; cases h

theorem mem_spentKeys (spent : List Output) (k : Key) :
    k ∈ spentKeys spent ↔
      ∃ u ∈ spent, (∃ s0, u.content = .custom (.reveal s0 k)) ∨
        (∃ v0, u.content = .custom (.keyValue k v0)) := by
  unfold spentKeys
  rw [List.mem_filterMap]
  constructor
  · rintro ⟨u, hu, hf⟩
    cases hc : u.content with
    | value w => rw [hc] at hf; cases hf
    | custom b =>
      cases b with
      | commitment c0 => rw [hc] at hf; cases hf
      | reveal s0 k0 =>
        rw [hc] at hf
        cases hf
        exact ⟨u, hu, Or.inl ⟨s0, hc⟩⟩
      | keyValue k0 v0 =>
        rw [hc] at hf
        cases hf
        exact ⟨u, hu, Or.inr ⟨v0, hc⟩⟩
  · rintro ⟨u, hu, ⟨s0, hc⟩ | ⟨v0, hc⟩⟩
    · exact ⟨u, hu, by rw [hc]⟩
    · exact ⟨u, hu, by rw [hc]⟩

/-- C9, counterexample.  The claim says validation fails with
InvalidNameCommitment exactly when some Reveal output's commitment is
outside the spent set.  Here the transaction has such a mismatching
reveal (blake2b_hmac 1 0 = 2 is not among the spent commitments), yet
validation reports RevealTooLate, because the freshness check on the
stale spent commitment 7 runs first. -/
theorem C9_mismatch_masked_by_earlier_error :
    validate_transaction_pure c9S c9Spent 2 c9Tx =
      .error (.bitNames (.revealTooLate 7 1)) ∧
    blake2b_hmac 1 0 ∉ spentCommitments c9Spent ∧
    (⟨0, .custom (.reveal 0 1)⟩ : Output) ∈ c9Tx.outputs := by
  exact ⟨by decide, by decide, by decide⟩

/-- C9, amended.  Validation fails with InvalidNameCommitment only for
a reveal output whose commitment commit(key, salt) is outside the
spent-commitment set; conversely, a transaction that validates has
every reveal output matching SOME spent commitment (any of several) —
but when a mismatch coexists with an earlier failing rule (a missing
or stale spent commitment, or an earlier output's failure) validation
reports that earlier error instead of InvalidNameCommitment. -/
theorem C9_preimage_check :
    (∀ (s : BitNamesState) (spent : List Output) (bh : Nat) (tx : Transaction)
        (key : Key) (salt : Nat) (c : Commitment),
      validate_transaction_pure s spent bh tx =
          .error (.bitNames (.invalidNameCommitment key salt c)) →
        c = blake2b_hmac key salt ∧ c ∉ spentCommitments spent ∧
          ∃ a, (⟨a, .custom (.reveal salt key)⟩ : Output) ∈ tx.outputs) ∧
    (∀ (s : BitNamesState) (spent : List Output) (bh : Nat) (tx : Transaction),
      validate_transaction_pure s spent bh tx = .ok () →
        ∀ o ∈ tx.outputs, ∀ salt key, o.content = .custom (.reveal salt key) →
          blake2b_hmac key salt ∈ spentCommitments spent) := by
  constructor
  · intro s spent bh tx key salt c h
    unfold validate_transaction_pure at h
    cases hf : checkFreshness s bh (spentCommitments spent) with
    | error e =>
      simp only [hf] at h
      cases h
      rcases checkFreshness_error _ _ _ _ hf with ⟨c', hc'⟩ | ⟨c', n, hc'⟩ <;> cases hc'
    | ok u =>
      cases u
      simp only [hf] at h
      exact checkOutputs_inc_inv s _ _ key salt c tx.outputs h
  · intro s spent bh tx h o ho salt key hco
    unfold validate_transaction_pure at h
    cases hf : checkFreshness s bh (spentCommitments spent) with
    | error e => simp only [hf] at h; cases h
    | ok u =>
      cases u
      simp only [hf] at h
      exact checkOutputs_ok_reveals s _ _ tx.outputs h o ho salt key hco

/-- C9, witness.  Both parts applied at concrete inputs: a transaction
with two spent commitments whose reveal matches the second validates,
and the theorem yields the membership; a mismatching reveal with a
fresh spent commitment fails with InvalidNameCommitment and the
theorem yields the non-membership. -/
theorem C9_preimage_check_witness :
    validate_transaction_pure c9wS c9wSpent 1 c9Tx = .ok () ∧
    blake2b_hmac 1 0 ∈ spentCommitments c9wSpent ∧
    validate_transaction_pure c9vS c9vSpent 1 c9Tx =
      .error (.bitNames (.invalidNameCommitment 1 0 2)) ∧
    (2 : Nat) ∉ spentCommitments c9vSpent := by
  have hok : validate_transaction_pure c9wS c9wSpent 1 c9Tx = .ok () := by decide
  have herr : validate_transaction_pure c9vS c9vSpent 1 c9Tx =
      .error (.bitNames (.invalidNameCommitment 1 0 2)) := by decide
  refine ⟨hok, ?_, herr, ?_⟩
  · exact C9_preimage_check.2 c9wS c9wSpent 1 c9Tx hok ⟨0, .custom (.reveal 0 1)⟩
      (by decide) 0 1 rfl
  · exact (C9_preimage_check.1 c9vS c9vSpent 1 c9Tx 1 0 2 herr).2.1

theorem applyOutputs_append (os os' : List Output) : ∀ (st : BitNamesState) (txid vout : Nat),
    applyOutputs st txid vout (os ++ os') =
      applyOutputs (applyOutputs st txid vout os) txid (vout + os.length) os' := by
  induction os with
  | nil => intro st txid vout; simp [applyOutputs]
  | cons o rest ih =>
    intro st txid vout
    simp only [List.cons_append, applyOutputs, List.length_cons, List.append_eq]
    rw [ih]
    have hv : vout + 1 + rest.length = vout + (rest.length + 1) := by omega
    rw [hv]

/-- C10.  The implicit KeyValue output kind: a transaction that
validates has, for every KeyValue output with key k, some spent input
that is a Reveal or KeyValue output for the same k; when no such spent
input exists (and no earlier rule interferes: here no spent
commitments and a single output), validation fails with InvalidKey;
and connecting a KeyValue output writes its value into key_to_value —
publishing the value for the key. -/
theorem C10_keyvalue_rules :
    (∀ (s : BitNamesState) (spent : List Output) (bh : Nat) (tx : Transaction),
      validate_transaction_pure s spent bh tx = .ok () →
        ∀ o ∈ tx.outputs, ∀ k v, o.content = .custom (.keyValue k v) →
          ∃ u ∈ spent, (∃ s0, u.content = .custom (.reveal s0 k)) ∨
            (∃ v0, u.content = .custom (.keyValue k v0))) ∧
    (∀ (s : BitNamesState) (spent : List Output) (bh : Nat) (tx : Transaction)
        (a : Address) (k : Key) (v : Option Value),
      spentCommitments spent = [] →
      tx.outputs = [⟨a, .custom (.keyValue k v)⟩] →
      k ∉ spentKeys spent →
      validate_transaction_pure s spent bh tx = .error (.bitNames (.invalidKey k))) ∧
    (∀ (st : BitNamesState) (txid vout : Nat) (os : List Output) (a : Address)
        (k : Key) (v : Option Value),
      alGet (applyOutputs st txid vout
        (os ++ [⟨a, .custom (.keyValue k v)⟩])).key_to_value k = some v) := by
  refine ⟨?_, ?_, ?_⟩
  · intro s spent bh tx h o ho k v hco
    unfold validate_transaction_pure at h
    cases hf : checkFreshness s bh (spentCommitments spent) with
    | error e => simp only [hf] at h; cases h
    | ok u =>
      cases u
      simp only [hf] at h
      exact (mem_spentKeys spent k).mp
        (checkOutputs_ok_keyvalues s _ _ tx.outputs h o ho k v hco)
  · intro s spent bh tx a k v hsc hout hk
    unfold validate_transaction_pure
    rw [hsc, hout]
    simp only [checkFreshness, checkOutputs, if_neg hk]
  · intro st txid vout os a k v
    rw [applyOutputs_append]
    simp only [applyOutputs, applyOutput, alGet_alPut_self]

/-- C10, witness.  All three parts at concrete inputs: a KeyValue
output renewing a spent Reveal for key 1 validates and the theorem
yields the witnessing spent input; with no spent input for key 1
validation fails with InvalidKey 1; and applying the KeyValue output
binds key 1 to its value some 9. -/
theorem C10_keyvalue_rules_witness :
    validate_transaction_pure initialState [⟨0, .custom (.reveal 3 1)⟩] 1
      ⟨[], [⟨0, .custom (.keyValue 1 (some 9))⟩], []⟩ = .ok () ∧
    (∃ u ∈ ([⟨0, .custom (.reveal 3 1)⟩] : List Output),
      (∃ s0, u.content = .custom (.reveal s0 1)) ∨
        (∃ v0, u.content = .custom (.keyValue 1 v0))) ∧
    validate_transaction_pure initialState [] 1
      ⟨[], [⟨0, .custom (.keyValue 1 (some 9))⟩], []⟩ =
      .error (.bitNames (.invalidKey 1)) ∧
    alGet (applyOutputs initialState 0 0
      ([] ++ [⟨0, .custom (.keyValue 1 (some 9))⟩])).key_to_value 1 = some (some 9) := by
  have hok : validate_transaction_pure initialState [⟨0, .custom (.reveal 3 1)⟩] 1
      ⟨[], [⟨0, .custom (.keyValue 1 (some 9))⟩], []⟩ = .ok () := by decide
  refine ⟨hok, ?_, ?_, ?_⟩
  · exact C10_keyvalue_rules.1 initialState [⟨0, .custom (.reveal 3 1)⟩] 1
      ⟨[], [⟨0, .custom (.keyValue 1 (some 9))⟩], []⟩ hok
      ⟨0, .custom (.keyValue 1 (some 9))⟩ (by decide) 1 (some 9) rfl
  · exact C10_keyvalue_rules.2.1 initialState [] 1
      ⟨[], [⟨0, .custom (.keyValue 1 (some 9))⟩], []⟩ 0 1 (some 9) rfl rfl (by decide)
  · exact C10_keyvalue_rules.2.2 initialState 0 0 [] 0 1 (some 9)

theorem flattenInputs_single (body : Body) (tx : Transaction)
    (h : body.transactions = [tx]) : flattenInputs body = tx.inputs := by
  simp [flattenInputs, h]

theorem resolveInputs_length (u : List (OutPoint × Output)) :
    ∀ (ins : List OutPoint) (spent : List Output),
      resolveInputs u ins = some spent → spent.length = ins.length := by
  intro ins
  induction ins with
  | nil =>
    intro spent h
    cases h
    rfl
  | cons i rest ih =>
    intro spent h
    cases hg : alGet u i with
    | none =>
      simp only [resolveInputs, hg] at h
      exact Option.noConfusion h
    | some o =>
      simp only [resolveInputs, hg] at h
      cases hr : resolveInputs u rest with
      | none => rw [hr] at h; cases h
      | some us =>
        rw [hr] at h
        cases h
        simp [ih us hr]

theorem resolveInputs_none (u : List (OutPoint × Output)) (op : OutPoint) :
    ∀ ins : List OutPoint, op ∈ ins → alGet u op = none →
      resolveInputs u ins = none := by
  intro ins
  induction ins with
  | nil => intro h; cases h
  | cons i rest ih =>
    intro hmem hnone
    rcases List.mem_cons.mp hmem with hh | hh
    · subst hh
      simp only [resolveInputs, hnone]
    · cases hg : alGet u i with
      | none => simp only [resolveInputs, hg]
      | some o => simp only [resolveInputs, hg, ih hh hnone]

theorem resolveInputs_mem (u : List (OutPoint × Output)) (op : OutPoint) (o : Output) :
    ∀ (ins : List OutPoint) (spent : List Output),
      resolveInputs u ins = some spent → op ∈ ins → alGet u op = some o →
      o ∈ spent := by
  intro ins
  induction ins with
  | nil => intro spent _ hmem; cases hmem
  | cons i rest ih =>
    intro spent h hmem hop
    cases hg : alGet u i with
    | none =>
      simp only [resolveInputs, hg] at h
      exact Option.noConfusion h
    | some o' =>
      simp only [resolveInputs, hg] at h
      cases hr : resolveInputs u rest with
      | none => rw [hr] at h; cases h
      | some us =>
        rw [hr] at h
        cases h
        rcases List.mem_cons.mp hmem with hh | hh
        · subst hh
          rw [hop] at hg
          cases hg
          exact List.mem_cons_self _ _
        · exact List.mem_cons_of_mem _ (ih us hr hh hop)

theorem mem_spentCommitments (spent : List Output) (u : Output) (c : Commitment)
    (hu : u ∈ spent) (hc : u.content = .custom (.commitment c)) :
    c ∈ spentCommitments spent := by
  unfold spentCommitments
  rw [List.mem_filterMap]
  exact ⟨u, hu, by rw [hc]⟩

theorem checkFreshness_ok_mem (s : BitNamesState) (bh : Nat) :
    ∀ cs : List Commitment, checkFreshness s bh cs = .ok () →
      ∀ c ∈ cs, ∃ hh, alGet s.commitment_to_height c = some hh ∧
        ¬ (bh - hh > COMMITMENT_MAX_AGE) := by
  intro cs
  induction cs with
  | nil => intro _ c hc; cases hc
  | cons c0 rest ih =>
    intro h c hc
    cases hg : get_commitment_height s c0 with
    | error e =>
      simp only [checkFreshness, hg] at h
      cases h
    | ok hh0 =>
      simp only [checkFreshness, hg] at h
      by_cases hl : bh - hh0 > COMMITMENT_MAX_AGE
      · rw [if_pos hl] at h; cases h
      · rw [if_neg hl] at h
        rcases List.mem_cons.mp hc with hcc | hcc
        · subst hcc
          refine ⟨hh0, ?_, hl⟩
          unfold get_commitment_height at hg
          cases hgg : alGet s.commitment_to_height c with
          | none => rw [hgg] at hg; cases hg
          | some v => rw [hgg] at hg; cases hg; rfl
        · exact ih h c hcc

theorem rustSlice_full (xs : List α) : rustSlice xs 0 xs.length = some xs := by
  simp [rustSlice]

theorem vtp_ok_freshness (s : BitNamesState) (spent : List Output) (bh : Nat)
    (tx : Transaction) (h : validate_transaction_pure s spent bh tx = .ok ()) :
    checkFreshness s bh (spentCommitments spent) = .ok () := by
  unfold validate_transaction_pure at h
  cases hf : checkFreshness s bh (spentCommitments spent) with
  | error e => simp only [hf] at h; cases h
  | ok u =>
    cases u
    rfl

theorem connect_body_ok_validate (s : BitNamesState) (body : Body) (t : BitNamesState)
    (h : connect_body s body = some (none, t)) :
    ∃ fee, validate_body s (s.best_block_height + 1) body = some (.ok fee) := by
  cases hv : validate_body s (s.best_block_height + 1) body with
  | none =>
    simp only [connect_body, hv] at h
    exact Option.noConfusion h
  | some r =>
    cases r with
    | error e =>
      simp only [connect_body, hv] at h
      simp at h
    | ok fee => exact ⟨fee, rfl⟩

theorem validate_body_single_ok (s : BitNamesState) (bh : Nat) (body : Body)
    (tx : Transaction) (fee : Nat) (htx : body.transactions = [tx])
    (h : validate_body s bh body = some (.ok fee)) :
    ∃ spent, resolveInputs s.utxos tx.inputs = some spent ∧
      spent.length = tx.inputs.length ∧
      validate_transaction_pure s spent bh tx = .ok () := by
  unfold validate_body at h
  cases ha : verify_authorizations body with
  | error e =>
    simp only [ha] at h
    simp at h
  | ok u =>
    cases u
    simp only [ha] at h
    rw [flattenInputs_single body tx htx] at h
    cases hr : resolveInputs s.utxos tx.inputs with
    | none =>
      rw [hr] at h
      exact Option.noConfusion h
    | some spent =>
      rw [hr] at h
      have hlen : spent.length = tx.inputs.length := resolveInputs_length _ _ _ hr
      have hslice : rustSlice spent 0 tx.inputs.length = some spent := by
        rw [← hlen]
        exact rustSlice_full spent
      rw [htx] at h
      simp only [validateTxSlices, hslice] at h
      cases hp : validate_transaction_pure s spent bh tx with
      | error e =>
        simp only [hp] at h
        simp at h
      | ok u' =>
        cases u'
        exact ⟨spent, rfl, hlen, hp⟩

/-- C6.  The commitment window with COMMITMENT_MAX_AGE = 1, stated for
one-transaction bodies (the multi-transaction case is distorted by the
slicing bug settled under C2).  Part one: a body spending the UTXO of
commitment c recorded at height h (h at most the current height, as in
every reachable state) connects successfully only when
best_block_height = h, i.e. only at block height h + 1 — the window
h+1 .. h+MAX_AGE.  Part two: a reveal in the same block as its
commitment fails to connect: the commitment outpoint is not yet in the
utxo table, so input resolution panics and the body does not connect.
Part three: spending commitment c at a block height exceeding
h + MAX_AGE fails with RevealTooLate and late_by = height − h − MAX_AGE. -/
theorem C6_commitment_window :
    (∀ (s : BitNamesState) (body : Body) (tx : Transaction) (op : OutPoint)
        (u : Output) (c : Commitment) (h : Nat) (t : BitNamesState),
      body.transactions = [tx] →
      alGet s.commitment_to_height c = some h →
      h ≤ s.best_block_height →
      op ∈ tx.inputs →
      alGet s.utxos op = some u →
      u.content = .custom (.commitment c) →
      connect_body s body = some (none, t) →
      s.best_block_height = h) ∧
    (∀ (s : BitNamesState) (body : Body) (op : OutPoint) (bh : Nat),
      verify_authorizations body = .ok () →
      op ∈ flattenInputs body →
      alGet s.utxos op = none →
      validate_body s bh body = none ∧ connect_body s body = none) ∧
    (∀ (s : BitNamesState) (body : Body) (tx : Transaction) (spent : List Output)
        (c : Commitment) (h : Nat),
      body.transactions = [tx] →
      verify_authorizations body = .ok () →
      resolveInputs s.utxos tx.inputs = some spent →
      spentCommitments spent = [c] →
      alGet s.commitment_to_height c = some h →
      s.best_block_height + 1 - h > COMMITMENT_MAX_AGE →
      connect_body s body = some (some (.bitNames (.revealTooLate c
        (s.best_block_height + 1 - h - COMMITMENT_MAX_AGE))), s)) := by
  refine ⟨?_, ?_, ?_⟩
  · intro s body tx op u c h t htx hch hle hop hu huc hcb
    rcases connect_body_ok_validate s body t hcb with ⟨fee, hvb⟩
    rcases validate_body_single_ok s _ body tx fee htx hvb with ⟨spent, hres, _, hpure⟩
    have hmem : u ∈ spent := resolveInputs_mem _ _ _ _ _ hres hop hu
    have hcm : c ∈ spentCommitments spent := mem_spentCommitments spent u c hmem huc
    have hfok := vtp_ok_freshness _ _ _ _ hpure
    rcases checkFreshness_ok_mem s _ _ hfok c hcm with ⟨hh, hch', hnl⟩
    rw [hch] at hch'
    cases hch'
    have hmax : COMMITMENT_MAX_AGE = 1 := rfl
    rw [hmax] at hnl
    omega
  · intro s body op bh hauth hop hnone
    have hres := resolveInputs_none s.utxos op (flattenInputs body) hop hnone
    have hvb : ∀ bh0, validate_body s bh0 body = none := by
      intro bh0
      unfold validate_body
      simp only [hauth, hres]
    refine ⟨hvb bh, ?_⟩
    unfold connect_body
    simp only [hvb]
  · intro s body tx spent c h htx hauth hres hsc hch hlate
    have hlen := resolveInputs_length _ _ _ hres
    have hslice : rustSlice spent 0 tx.inputs.length = some spent := by
      rw [← hlen]
      exact rustSlice_full spent
    have hpure : validate_transaction_pure s spent (s.best_block_height + 1) tx =
        .error (.bitNames (.revealTooLate c
          (s.best_block_height + 1 - h - COMMITMENT_MAX_AGE))) := by
      unfold validate_transaction_pure
      rw [hsc]
      simp only [checkFreshness, get_commitment_height, hch, if_pos hlate]
    have hvb : validate_body s (s.best_block_height + 1) body =
        some (.error (.bitNames (.revealTooLate c
          (s.best_block_height + 1 - h - COMMITMENT_MAX_AGE)))) := by
      unfold validate_body
      rw [flattenInputs_single body tx htx]
      simp only [hauth, hres, htx, validateTxSlices, hslice, hpure]
    unfold connect_body
    simp only [hvb]

/-- C6, witness.  All three parts at concrete inputs: a reveal one
block after its commitment connects (and the theorem places the block
exactly at height h + 1); the same-block commit-and-reveal body does
not connect; a reveal two blocks after its commitment fails with
RevealTooLate and late_by 1. -/
theorem C6_commitment_window_witness :
    connect_body c6S c6Body = some (none, connectResult c6S c6Body) ∧
    c6S.best_block_height = 0 ∧
    validate_body c6bS 1 c6bBody = none ∧
    connect_body c6bS c6bBody = none ∧
    connect_body c6cS c6Body = some (some (.bitNames (.revealTooLate 0 1)), c6cS) := by
  have hok : connect_body c6S c6Body = some (none, connectResult c6S c6Body) := by decide
  have hsb := C6_commitment_window.2.1 c6bS c6bBody (.regular (hashTx c6bTxC) 0) 1
    (by decide) (by decide) (by decide)
  have hlate := C6_commitment_window.2.2 c6cS c6Body c6Tx
    [⟨1, .custom (.commitment 0)⟩] 0 0 rfl (by decide) (by decide) (by decide)
    (by decide) (by decide)
  refine ⟨hok, ?_, hsb.1, hsb.2, hlate⟩
  exact C6_commitment_window.1 c6S c6Body c6Tx (.deposit 0)
    ⟨1, .custom (.commitment 0)⟩ 0 0 (connectResult c6S c6Body) rfl (by decide)
    (by decide) (by decide) (by decide) rfl hok

theorem connect_body_ok_sweep (s : BitNamesState) (body : Body) (t : BitNamesState)
    (h : connect_body s body = some (none, t)) :
    sweepAll
      (applyTransactions { s with best_block_height := s.best_block_height + 1 }
        body.transactions)
      (expiredCommitments
        (applyTransactions { s with best_block_height := s.best_block_height + 1 }
          body.transactions)) = .ok t := by
  cases hv : validate_body s (s.best_block_height + 1) body with
  | none =>
    simp only [connect_body, hv] at h
    exact Option.noConfusion h
  | some r =>
    cases r with
    | error e =>
      simp only [connect_body, hv] at h
      simp at h
    | ok fee =>
      simp only [connect_body, hv] at h
      cases hs : sweepAll
          (applyTransactions { s with best_block_height := s.best_block_height + 1 }
            body.transactions)
          (expiredCommitments
            (applyTransactions { s with best_block_height := s.best_block_height + 1 }
              body.transactions)) with
      | error e =>
        rw [hs] at h
        simp at h
      | ok t' =>
        rw [hs] at h
        simp only [Option.some.injEq, Prod.mk.injEq] at h
        rw [← h.2]

theorem sweepOne_keysAligned (st : BitNamesState) (c : Commitment) (t : BitNamesState)
    (h : sweepOne st c = .ok t) (hKA : KeysAligned st) : KeysAligned t := by
  cases h1 : alGet st.commitment_to_key c with
  | none =>
    simp only [sweepOne, h1] at h
    cases h2 : alGet st.commitment_to_outpoint c with
    | none => rw [h2] at h; cases h
    | some op =>
      rw [h2] at h
      cases h
      intro x
      by_cases hx : x = c
      · subst hx
        rw [alGet_alDelete_self, alGet_alDelete_self]
        exact Iff.rfl
      · simp only [alGet_alDelete_ne _ _ _ hx]
        exact hKA x
  | some k =>
    simp only [sweepOne, h1] at h
    cases h2 : alGet st.commitment_to_outpoint c with
    | none => rw [h2] at h; cases h
    | some op =>
      rw [h2] at h
      cases h
      intro x
      by_cases hx : x = c
      · subst hx
        rw [alGet_alDelete_self, alGet_alDelete_self]
        exact Iff.rfl
      · simp only [alGet_alDelete_ne _ _ _ hx]
        exact hKA x

theorem sweepAll_keysAligned (E : List Commitment) : ∀ (st t : BitNamesState),
    sweepAll st E = .ok t → KeysAligned st → KeysAligned t := by
  induction E with
  | nil =>
    intro st t h hKA
    cases h
    exact hKA
  | cons c rest ih =>
    intro st t h hKA
    cases h1 : sweepOne st c with
    | error e =>
      simp only [sweepAll, h1] at h
      exact Except.noConfusion h
    | ok st1 =>
      simp only [sweepAll, h1] at h
      exact ih st1 t h (sweepOne_keysAligned st c st1 h1 hKA)

/-- C7, counterexample.  A reachable two-block chain: a deposit, a
block publishing commitment 0, then a block whose reveal spends the
commitment UTXO within the window.  Afterwards commitment 0 still has
entries in commitment_to_height and commitment_to_outpoint, but the
UTXO at the recorded outpoint is gone — the spend deleted it while the
registry entries persist until the expiry sweep, so the UTXO-pointing
clause of invariant I2 fails exactly in the situation the claim
singles out. -/
theorem C7_spent_commitment_outpoint_dangles :
    connect_deposits initialState [(.deposit 0, ⟨1, .value 100⟩)] = c6bS ∧
    connect_body c6bS c7BodyA = some (none, c7s2) ∧
    connect_body c7s2 c7BodyB = some (none, c7t) ∧
    alGet c7t.commitment_to_height 0 = some 1 ∧
    alGet c7t.commitment_to_outpoint 0 = some (.regular (hashTx c6bTxC) 0) ∧
    alGet c7t.utxos (.regular (hashTx c6bTxC) 0) = none := by
  exact ⟨by decide, by decide, by decide, by decide, by decide, by decide⟩

/-- C7, amended.  The keyset half of I2 survives: after every
successful connect_body from a state whose commitment_to_height and
commitment_to_outpoint have the same key set, the final state's two
tables again have the same key set.  The UTXO-pointing half does not
hold in general: it fails immediately after a block in which a Reveal
spent the commitment's UTXO within the window (the counterexample),
the dangling entries being removed only by a later expiry sweep. -/
theorem C7_keyset_preservation (s : BitNamesState) (body : Body) (t : BitNamesState)
    (h : connect_body s body = some (none, t)) (hKA : KeysAligned s) : KeysAligned t :=
  sweepAll_keysAligned _ _ _ (connect_body_ok_sweep s body t h)
    (applyTransactions_keysAligned _ _ hKA)

/-- C7, witness.  The keyset-preservation theorem applied to the
concrete block-1 connect of the counterexample chain, whose pre-state
has aligned (empty) keysets. -/
theorem C7_keyset_preservation_witness :
    connect_body c6bS c7BodyA = some (none, c7s2) ∧
    ((alGet c7s2.commitment_to_height 0).isSome ↔
      (alGet c7s2.commitment_to_outpoint 0).isSome) := by
  have hc : connect_body c6bS c7BodyA = some (none, c7s2) := by decide
  have hKA := C7_keyset_preservation c6bS c7BodyA c7s2 hc
    (fun c => by simp [c6bS, alGet])
  exact ⟨hc, hKA 0⟩

theorem sweepOne_cases (st : BitNamesState) (c : Commitment) (t : BitNamesState)
    (h : sweepOne st c = .ok t) :
    ∃ op, alGet st.commitment_to_outpoint c = some op ∧
      ((alGet st.commitment_to_key c = none ∧
        t = { st with
          utxos := alDelete st.utxos op,
          commitment_to_height := alDelete st.commitment_to_height c,
          commitment_to_outpoint := alDelete st.commitment_to_outpoint c }) ∨
       (∃ k, alGet st.commitment_to_key c = some k ∧
        t = { st with
          key_to_commitment := alDelete st.key_to_commitment k,
          commitment_to_key := alDelete st.commitment_to_key c,
          utxos := alDelete st.utxos op,
          commitment_to_height := alDelete st.commitment_to_height c,
          commitment_to_outpoint := alDelete st.commitment_to_outpoint c })) := by
  cases h1 : alGet st.commitment_to_key c with
  | none =>
    simp only [sweepOne, h1] at h
    cases h2 : alGet st.commitment_to_outpoint c with
    | none => rw [h2] at h; cases h
    | some op =>
      rw [h2] at h
      cases h
      exact ⟨op, rfl, Or.inl ⟨rfl, rfl⟩⟩
  | some k =>
    simp only [sweepOne, h1] at h
    cases h2 : alGet st.commitment_to_outpoint c with
    | none => rw [h2] at h; cases h
    | some op =>
      rw [h2] at h
      cases h
      exact ⟨op, rfl, Or.inr ⟨k, rfl, rfl⟩⟩

theorem sweepOne_ktv (st : BitNamesState) (c : Commitment) (t : BitNamesState)
    (h : sweepOne st c = .ok t) : t.key_to_value = st.key_to_value := by
  rcases sweepOne_cases st c t h with ⟨op, hop, ⟨h1, rfl⟩ | ⟨k, h1, rfl⟩⟩ <;> rfl

theorem sweepOne_clear (st : BitNamesState) (c : Commitment) (t : BitNamesState)
    (h : sweepOne st c = .ok t) :
    alGet t.commitment_to_height c = none ∧
    alGet t.commitment_to_outpoint c = none ∧
    alGet t.commitment_to_key c = none := by
  rcases sweepOne_cases st c t h with ⟨op, hop, ⟨h1, rfl⟩ | ⟨k, h1, rfl⟩⟩
  · exact ⟨alGet_alDelete_self _ _, alGet_alDelete_self _ _, h1⟩
  · exact ⟨alGet_alDelete_self _ _, alGet_alDelete_self _ _, alGet_alDelete_self _ _⟩

theorem sweepOne_ne (st : BitNamesState) (c : Commitment) (t : BitNamesState)
    (h : sweepOne st c = .ok t) (x : Commitment) (hx : x ≠ c) :
    alGet t.commitment_to_height x = alGet st.commitment_to_height x ∧
    alGet t.commitment_to_outpoint x = alGet st.commitment_to_outpoint x ∧
    alGet t.commitment_to_key x = alGet st.commitment_to_key x := by
  rcases sweepOne_cases st c t h with ⟨op, hop, ⟨h1, rfl⟩ | ⟨k, h1, rfl⟩⟩
  · exact ⟨alGet_alDelete_ne _ _ _ hx, alGet_alDelete_ne _ _ _ hx, rfl⟩
  · exact ⟨alGet_alDelete_ne _ _ _ hx, alGet_alDelete_ne _ _ _ hx, alGet_alDelete_ne _ _ _ hx⟩

theorem sweepOne_ktc_shrink (st : BitNamesState) (c : Commitment) (t : BitNamesState)
    (h : sweepOne st c = .ok t) (k : Key) (v : Commitment)
    (hk : alGet t.key_to_commitment k = some v) :
    alGet st.key_to_commitment k = some v := by
  rcases sweepOne_cases st c t h with ⟨op, hop, ⟨h1, rfl⟩ | ⟨k0, h1, rfl⟩⟩
  · exact hk
  · exact alGet_alDelete_some _ _ _ _ hk

theorem sweepOne_ktc_clear (st : BitNamesState) (c : Commitment) (t : BitNamesState)
    (h : sweepOne st c = .ok t)
    (hfwd : ∀ k, alGet st.key_to_commitment k = some c →
      alGet st.commitment_to_key c = some k) :
    ∀ k, alGet t.key_to_commitment k ≠ some c := by
  rcases sweepOne_cases st c t h with ⟨op, hop, ⟨h1, rfl⟩ | ⟨k0, h1, rfl⟩⟩
  · intro k hk
    have h2 := hfwd k hk
    rw [h1] at h2
    cases h2
  · intro k hk
    have hk' : alGet st.key_to_commitment k = some c := alGet_alDelete_some _ _ _ _ hk
    have h2 := hfwd k hk'
    rw [h1] at h2
    cases h2
    rw [alGet_alDelete_self] at hk
    cases hk

theorem sweepOne_utxo_del (st : BitNamesState) (c : Commitment) (t : BitNamesState)
    (h : sweepOne st c = .ok t) (op : OutPoint)
    (hop : alGet st.commitment_to_outpoint c = some op) : alGet t.utxos op = none := by
  rcases sweepOne_cases st c t h with ⟨op0, hop0, ⟨h1, rfl⟩ | ⟨k0, h1, rfl⟩⟩ <;>
    · rw [hop0] at hop
      cases hop
      exact alGet_alDelete_self _ _

theorem sweepOne_utxos_shrink (st : BitNamesState) (c : Commitment) (t : BitNamesState)
    (h : sweepOne st c = .ok t) (x : OutPoint) (v : Output)
    (hx : alGet t.utxos x = some v) : alGet st.utxos x = some v := by
  rcases sweepOne_cases st c t h with ⟨op, hop, ⟨h1, rfl⟩ | ⟨k0, h1, rfl⟩⟩ <;>
    exact alGet_alDelete_some _ _ _ _ hx

theorem sweepOne_cto_shrink (st : BitNamesState) (c : Commitment) (t : BitNamesState)
    (h : sweepOne st c = .ok t) (x : Commitment) (v : OutPoint)
    (hx : alGet t.commitment_to_outpoint x = some v) :
    alGet st.commitment_to_outpoint x = some v := by
  rcases sweepOne_cases st c t h with ⟨op, hop, ⟨h1, rfl⟩ | ⟨k0, h1, rfl⟩⟩ <;>
    exact alGet_alDelete_some _ _ _ _ hx

theorem sweepAll_ktv (E : List Commitment) : ∀ (st t : BitNamesState),
    sweepAll st E = .ok t → t.key_to_value = st.key_to_value := by
  induction E with
  | nil =>
    intro st t h
    cases h
    rfl
  | cons c rest ih =>
    intro st t h
    cases h1 : sweepOne st c with
    | error e =>
      simp only [sweepAll, h1] at h
      exact Except.noConfusion h
    | ok st1 =>
      simp only [sweepAll, h1] at h
      rw [ih st1 t h, sweepOne_ktv st c st1 h1]

theorem sweepAll_shrink (E : List Commitment) : ∀ (st t : BitNamesState),
    sweepAll st E = .ok t →
    (∀ x v, alGet t.commitment_to_height x = some v →
      alGet st.commitment_to_height x = some v) ∧
    (∀ x v, alGet t.commitment_to_outpoint x = some v →
      alGet st.commitment_to_outpoint x = some v) ∧
    (∀ x v, alGet t.commitment_to_key x = some v →
      alGet st.commitment_to_key x = some v) ∧
    (∀ x v, alGet t.key_to_commitment x = some v →
      alGet st.key_to_commitment x = some v) ∧
    (∀ x v, alGet t.utxos x = some v → alGet st.utxos x = some v) := by
  induction E with
  | nil =>
    intro st t h
    cases h
    exact ⟨fun _ _ hh => hh, fun _ _ hh => hh, fun _ _ hh => hh,
      fun _ _ hh => hh, fun _ _ hh => hh⟩
  | cons c rest ih =>
    intro st t h
    cases h1 : sweepOne st c with
    | error e =>
      simp only [sweepAll, h1] at h
      exact Except.noConfusion h
    | ok st1 =>
      simp only [sweepAll, h1] at h
      rcases ih st1 t h with ⟨i1, i2, i3, i4, i5⟩
      refine ⟨?_, ?_, ?_, ?_, ?_⟩
      · intro x v hx
        by_cases hxc : x = c
        · subst hxc
          have := (sweepOne_clear st x st1 h1).1
          rw [i1 x v hx] at this
          cases this
        · rw [← (sweepOne_ne st c st1 h1 x hxc).1]
          exact i1 x v hx
      · intro x v hx
        by_cases hxc : x = c
        · subst hxc
          have := (sweepOne_clear st x st1 h1).2.1
          rw [i2 x v hx] at this
          cases this
        · rw [← (sweepOne_ne st c st1 h1 x hxc).2.1]
          exact i2 x v hx
      · intro x v hx
        by_cases hxc : x = c
        · subst hxc
          have := (sweepOne_clear st x st1 h1).2.2
          rw [i3 x v hx] at this
          cases this
        · rw [← (sweepOne_ne st c st1 h1 x hxc).2.2]
          exact i3 x v hx
      · intro x v hx
        exact sweepOne_ktc_shrink st c st1 h1 x v (i4 x v hx)
      · intro x v hx
        exact sweepOne_utxos_shrink st c st1 h1 x v (i5 x v hx)

theorem sweepAll_requires (E : List Commitment) : ∀ (st t : BitNamesState),
    sweepAll st E = .ok t → ∀ c ∈ E, (alGet st.commitment_to_outpoint c).isSome := by
  induction E with
  | nil => intro st t _ c hc; cases hc
  | cons c0 rest ih =>
    intro st t h c hc
    cases h1 : sweepOne st c0 with
    | error e =>
      simp only [sweepAll, h1] at h
      exact Except.noConfusion h
    | ok st1 =>
      simp only [sweepAll, h1] at h
      rcases List.mem_cons.mp hc with hcc | hcc
      · subst hcc
        rcases sweepOne_cases st c st1 h1 with ⟨op, hop, _⟩
        rw [hop]
        rfl
      · have hs1 : (alGet st1.commitment_to_outpoint c).isSome := ih st1 t h c hcc
        rcases Option.isSome_iff_exists.mp hs1 with ⟨op, hop⟩
        rw [sweepOne_cto_shrink st c0 st1 h1 c op hop]
        rfl

theorem sweepAll_clears (E : List Commitment) : ∀ (st t : BitNamesState),
    sweepAll st E = .ok t →
    (∀ k c, c ∈ E → alGet st.key_to_commitment k = some c →
      alGet st.commitment_to_key c = some k) →
    ∀ c ∈ E,
      alGet t.commitment_to_height c = none ∧
      alGet t.commitment_to_outpoint c = none ∧
      alGet t.commitment_to_key c = none ∧
      (∀ k, alGet t.key_to_commitment k ≠ some c) ∧
      (∀ op, alGet st.commitment_to_outpoint c = some op → alGet t.utxos op = none) := by
  induction E with
  | nil => intro st t _ _ c hc; cases hc
  | cons c0 rest ih =>
    intro st t h hfwd c hc
    cases h1 : sweepOne st c0 with
    | error e =>
      simp only [sweepAll, h1] at h
      exact Except.noConfusion h
    | ok st1 =>
      simp only [sweepAll, h1] at h
      rcases List.mem_cons.mp hc with hcc | hcc
      · subst hcc
        have hclear := sweepOne_clear st c st1 h1
        have hktcC := sweepOne_ktc_clear st c st1 h1
          (fun k hk => hfwd k c (List.mem_cons_self _ _) hk)
        rcases sweepAll_shrink rest st1 t h with ⟨s1, s2, s3, s4, s5⟩
        refine ⟨?_, ?_, ?_, ?_, ?_⟩
        · cases hx : alGet t.commitment_to_height c with
          | none => rfl
          | some v =>
            have hv := s1 c v hx
            rw [hclear.1] at hv
            cases hv
        · cases hx : alGet t.commitment_to_outpoint c with
          | none => rfl
          | some v =>
            have hv := s2 c v hx
            rw [hclear.2.1] at hv
            cases hv
        · cases hx : alGet t.commitment_to_key c with
          | none => rfl
          | some v =>
            have hv := s3 c v hx
            rw [hclear.2.2] at hv
            cases hv
        · intro k hk
          exact hktcC k (s4 k c hk)
        · intro op hop
          have hdel := sweepOne_utxo_del st c st1 h1 op hop
          cases hx : alGet t.utxos op with
          | none => rfl
          | some v =>
            have hv := s5 op v hx
            rw [hdel] at hv
            cases hv
      · have hreq := sweepAll_requires rest st1 t h c hcc
        have hne : c ≠ c0 := by
          intro hh
          subst hh
          rw [(sweepOne_clear st c st1 h1).2.1] at hreq
          simp at hreq
        have hfwd1 : ∀ k c', c' ∈ rest → alGet st1.key_to_commitment k = some c' →
            alGet st1.commitment_to_key c' = some k := by
          intro k c' hc' hk
          have hkst : alGet st.key_to_commitment k = some c' :=
            sweepOne_ktc_shrink st c0 st1 h1 k c' hk
          have hctk := hfwd k c' (List.mem_cons_of_mem _ hc') hkst
          have hne' : c' ≠ c0 := by
            intro hh
            subst hh
            have hreq' := sweepAll_requires rest st1 t h c' hc'
            rw [(sweepOne_clear st c' st1 h1).2.1] at hreq'
            simp at hreq'
          rw [(sweepOne_ne st c0 st1 h1 c' hne').2.2]
          exact hctk
        have hih := ih st1 t h hfwd1 c hcc
        refine ⟨hih.1, hih.2.1, hih.2.2.1, hih.2.2.2.1, ?_⟩
        intro op hop
        have hop1 : alGet st1.commitment_to_outpoint c = some op := by
          rw [(sweepOne_ne st c0 st1 h1 c hne).2.1]
          exact hop
        exact hih.2.2.2.2 op hop1

theorem mem_expired_of_entry (st : BitNamesState) (c : Commitment) (hgt : Nat)
    (hmem : (c, hgt) ∈ st.commitment_to_height)
    (hold : st.best_block_height - hgt > COMMITMENT_MAX_AGE) :
    c ∈ expiredCommitments st := by
  unfold expiredCommitments
  refine List.mem_map_of_mem Prod.fst (List.mem_filter.mpr ⟨hmem, ?_⟩)
  simpa using hold

/-- C8.  The expiry sweep, for every successful connect_body: writing
u for the intermediate state (height bumped, transactions applied) on
which the sweep runs, and assuming the forward half of invariant I3 on
u restricted to expired commitments (key_to_commitment entries
pointing at an expired commitment are mirrored in commitment_to_key —
true of reachable states, where the two maps are kept in sync and
commit is injective), every expired commitment is absent from
commitment_to_height, commitment_to_outpoint, commitment_to_key and
from the range of key_to_commitment, and the UTXO at its recorded
outpoint is deleted; the sweep never touches key_to_value; and no
commitment older than COMMITMENT_MAX_AGE survives in
commitment_to_height. -/
theorem C8_expiry_sweep (s : BitNamesState) (body : Body) (t u : BitNamesState)
    (hu : u = applyTransactions { s with best_block_height := s.best_block_height + 1 }
      body.transactions)
    (hconn : connect_body s body = some (none, t))
    (hfwd : ∀ k c, c ∈ expiredCommitments u → alGet u.key_to_commitment k = some c →
      alGet u.commitment_to_key c = some k) :
    (∀ c ∈ expiredCommitments u,
      alGet t.commitment_to_height c = none ∧
      alGet t.commitment_to_outpoint c = none ∧
      alGet t.commitment_to_key c = none ∧
      (∀ k, alGet t.key_to_commitment k ≠ some c) ∧
      (∀ op, alGet u.commitment_to_outpoint c = some op → alGet t.utxos op = none)) ∧
    t.key_to_value = u.key_to_value ∧
    (∀ c hgt, alGet t.commitment_to_height c = some hgt →
      t.best_block_height - hgt ≤ COMMITMENT_MAX_AGE) := by
  have hsw : sweepAll u (expiredCommitments u) = .ok t := by
    rw [hu]
    exact connect_body_ok_sweep s body t hconn
  refine ⟨sweepAll_clears _ u t hsw hfwd, sweepAll_ktv _ u t hsw, ?_⟩
  intro c hgt hx
  have hshr := (sweepAll_shrink _ u t hsw).1 c hgt hx
  by_cases hexp : c ∈ expiredCommitments u
  · have hcl := (sweepAll_clears _ u t hsw hfwd c hexp).1
    rw [hcl] at hx
    cases hx
  · have hmem := alGet_mem _ _ _ hshr
    have hbest : t.best_block_height = u.best_block_height := sweepAll_best _ _ _ hsw
    rw [hbest]
    by_contra hgt2
    have hmax : COMMITMENT_MAX_AGE = 1 := rfl
    rw [hmax] at hgt2
    have hold : u.best_block_height - hgt > COMMITMENT_MAX_AGE := by
      rw [hmax]
      omega
    exact hexp (mem_expired_of_entry u c hgt hmem hold)

/-- C8, witness.  A concrete connect from c8S: the empty body makes
commitment 3 two blocks old, the sweep removes it from all four
commitment tables and deletes its UTXO, and the published binding of
key 4 in key_to_value survives untouched. -/
theorem C8_expiry_sweep_witness :
    connect_body c8S ⟨[], []⟩ = some (none, c8T) ∧
    (3 : Nat) ∈ expiredCommitments c8U ∧
    alGet c8T.commitment_to_height 3 = none ∧
    alGet c8T.commitment_to_outpoint 3 = none ∧
    alGet c8T.commitment_to_key 3 = none ∧
    (∀ k, alGet c8T.key_to_commitment k ≠ some 3) ∧
    alGet c8T.utxos (.deposit 5) = none ∧
    c8T.key_to_value = c8U.key_to_value := by
  have hconn : connect_body c8S ⟨[], []⟩ = some (none, c8T) := by decide
  have hu : c8U = applyTransactions
      { c8S with best_block_height := c8S.best_block_height + 1 }
      (⟨[], []⟩ : Body).transactions := by decide
  have hfwd : ∀ k c, c ∈ expiredCommitments c8U →
      alGet c8U.key_to_commitment k = some c →
      alGet c8U.commitment_to_key c = some k := by
    intro k c hc hk
    have hE : expiredCommitments c8U = [3] := by decide
    rw [hE] at hc
    have hc3 : c = 3 := by simpa using hc
    subst hc3
    by_cases hk4 : k = 4
    · subst hk4
      decide
    · have h4 : ¬((4 : Nat) = k) := fun hh => hk4 hh.symm
      have hnone : alGet c8U.key_to_commitment k = none := by
        simp [c8U, alGet, h4]
      rw [hnone] at hk
      cases hk
  have h := C8_expiry_sweep c8S ⟨[], []⟩ c8T c8U hu hconn hfwd
  have hm : (3 : Nat) ∈ expiredCommitments c8U := by decide
  rcases h.1 3 hm with ⟨a1, a2, a3, a4, a5⟩
  exact ⟨hconn, hm, a1, a2, a3, a4, a5 (.deposit 5) (by decide), h.2.1⟩

theorem applyOutput_reveal_step (st : BitNamesState) (txid vout : Nat) (o : Output)
    (key : Key) (salt : Nat)
    (hsame : ∀ s0, o.content = .custom (.reveal s0 key) → s0 = salt)
    (hnokv : ∀ v, o.content ≠ .custom (.keyValue key v))
    (hP : alGet st.key_to_commitment key = some (blake2b_hmac key salt) ∧
      alGet st.commitment_to_key (blake2b_hmac key salt) = some key ∧
      alGet st.key_to_value key = some none) :
    alGet (applyOutput st txid vout o).key_to_commitment key =
      some (blake2b_hmac key salt) ∧
    alGet (applyOutput st txid vout o).commitment_to_key (blake2b_hmac key salt) =
      some key ∧
    alGet (applyOutput st txid vout o).key_to_value key = some none := by
  cases hc : o.content with
  | value v => simp only [applyOutput, hc]; exact hP
  | custom b =>
    cases b with
    | commitment c0 => simp only [applyOutput, hc]; exact hP
    | reveal s0 k0 =>
      by_cases hk : k0 = key
      · subst hk
        have hs := hsame s0 (by rw [hc])
        subst hs
        simp only [applyOutput, hc]
        exact ⟨alGet_alPut_self _ _ _, alGet_alPut_self _ _ _, alGet_alPut_self _ _ _⟩
      · have hcn : blake2b_hmac key salt ≠ blake2b_hmac k0 s0 := by
          intro hh
          exact hk (Nat.pair_eq_pair.mp hh).1.symm
        have hkn : key ≠ k0 := fun hh => hk hh.symm
        simp only [applyOutput, hc]
        exact ⟨by rw [alGet_alPut_ne _ _ _ _ hkn]; exact hP.1,
          by rw [alGet_alPut_ne _ _ _ _ hcn]; exact hP.2.1,
          by rw [alGet_alPut_ne _ _ _ _ hkn]; exact hP.2.2⟩
    | keyValue k0 v =>
      by_cases hk : k0 = key
      · subst hk
        exact absurd (by rw [hc]) (hnokv v)
      · have hkn : key ≠ k0 := fun hh => hk hh.symm
        simp only [applyOutput, hc]
        exact ⟨hP.1, hP.2.1, by rw [alGet_alPut_ne _ _ _ _ hkn]; exact hP.2.2⟩

theorem applyOutput_reveal_set (st : BitNamesState) (txid vout : Nat) (o : Output)
    (key : Key) (salt : Nat) (hc : o.content = .custom (.reveal salt key)) :
    alGet (applyOutput st txid vout o).key_to_commitment key =
      some (blake2b_hmac key salt) ∧
    alGet (applyOutput st txid vout o).commitment_to_key (blake2b_hmac key salt) =
      some key ∧
    alGet (applyOutput st txid vout o).key_to_value key = some none := by
  simp only [applyOutput, hc]
  exact ⟨alGet_alPut_self _ _ _, alGet_alPut_self _ _ _, alGet_alPut_self _ _ _⟩

theorem applyOutputs_reveal_stable (key : Key) (salt : Nat) :
    ∀ (outs : List Output) (st : BitNamesState) (txid vout : Nat),
    (∀ o ∈ outs, ∀ s0, o.content = .custom (.reveal s0 key) → s0 = salt) →
    (∀ o ∈ outs, ∀ v, o.content ≠ .custom (.keyValue key v)) →
    (alGet st.key_to_commitment key = some (blake2b_hmac key salt) ∧
      alGet st.commitment_to_key (blake2b_hmac key salt) = some key ∧
      alGet st.key_to_value key = some none) →
    (alGet (applyOutputs st txid vout outs).key_to_commitment key =
      some (blake2b_hmac key salt) ∧
    alGet (applyOutputs st txid vout outs).commitment_to_key (blake2b_hmac key salt) =
      some key ∧
    alGet (applyOutputs st txid vout outs).key_to_value key = some none) := by
  intro outs
  induction outs with
  | nil => intro st txid vout _ _ hP; exact hP
  | cons o rest ih =>
    intro st txid vout hsame hnokv hP
    exact ih _ _ _ (fun o' ho' => hsame o' (List.mem_cons_of_mem _ ho'))
      (fun o' ho' => hnokv o' (List.mem_cons_of_mem _ ho'))
      (applyOutput_reveal_step st txid vout o key salt
        (hsame o (List.mem_cons_self _ _)) (hnokv o (List.mem_cons_self _ _)) hP)

theorem applyOutputs_reveal_establish (key : Key) (salt : Nat) :
    ∀ (outs : List Output) (st : BitNamesState) (txid vout : Nat),
    (∃ o ∈ outs, o.content = .custom (.reveal salt key)) →
    (∀ o ∈ outs, ∀ s0, o.content = .custom (.reveal s0 key) → s0 = salt) →
    (∀ o ∈ outs, ∀ v, o.content ≠ .custom (.keyValue key v)) →
    (alGet (applyOutputs st txid vout outs).key_to_commitment key =
      some (blake2b_hmac key salt) ∧
    alGet (applyOutputs st txid vout outs).commitment_to_key (blake2b_hmac key salt) =
      some key ∧
    alGet (applyOutputs st txid vout outs).key_to_value key = some none) := by
  intro outs
  induction outs with
  | nil =>
    intro st txid vout hex _ _
    rcases hex with ⟨o, ho, _⟩
    cases ho
  | cons o rest ih =>
    intro st txid vout hex hsame hnokv
    rcases hex with ⟨o', ho', hco'⟩
    rcases List.mem_cons.mp ho' with hh | hh
    · subst hh
      exact applyOutputs_reveal_stable key salt rest _ txid (vout + 1)
        (fun o2 ho2 => hsame o2 (List.mem_cons_of_mem _ ho2))
        (fun o2 ho2 => hnokv o2 (List.mem_cons_of_mem _ ho2))
        (applyOutput_reveal_set st txid vout o' key salt hco')
    · exact ih _ txid (vout + 1) ⟨o', hh, hco'⟩
        (fun o2 ho2 => hsame o2 (List.mem_cons_of_mem _ ho2))
        (fun o2 ho2 => hnokv o2 (List.mem_cons_of_mem _ ho2))

theorem sweepAll_reveal_preserve (key : Key) (salt : Nat) :
    ∀ (E : List Commitment) (st t : BitNamesState),
    sweepAll st E = .ok t →
    blake2b_hmac key salt ∉ E →
    (∀ c ∈ E, alGet st.commitment_to_key c ≠ some key) →
    (alGet st.key_to_commitment key = some (blake2b_hmac key salt) ∧
      alGet st.commitment_to_key (blake2b_hmac key salt) = some key ∧
      alGet st.key_to_value key = some none) →
    (alGet t.key_to_commitment key = some (blake2b_hmac key salt) ∧
      alGet t.commitment_to_key (blake2b_hmac key salt) = some key ∧
      alGet t.key_to_value key = some none) := by
  intro E
  induction E with
  | nil =>
    intro st t h _ _ hP
    cases h
    exact hP
  | cons c0 rest ih =>
    intro st t h hx1 hx2 hP
    cases h1 : sweepOne st c0 with
    | error e =>
      simp only [sweepAll, h1] at h
      exact Except.noConfusion h
    | ok st1 =>
      simp only [sweepAll, h1] at h
      have hne : blake2b_hmac key salt ≠ c0 :=
        fun hh => hx1 (hh ▸ List.mem_cons_self _ _)
      have hP1 : alGet st1.key_to_commitment key = some (blake2b_hmac key salt) ∧
          alGet st1.commitment_to_key (blake2b_hmac key salt) = some key ∧
          alGet st1.key_to_value key = some none := by
        refine ⟨?_, ?_, ?_⟩
        · rcases sweepOne_cases st c0 st1 h1 with ⟨op, hop, ⟨hn, rfl⟩ | ⟨k0, hk0, rfl⟩⟩
          · exact hP.1
          · have hk0n : k0 ≠ key := by
              intro hh
              exact hx2 c0 (List.mem_cons_self _ _) (hh ▸ hk0)
            rw [alGet_alDelete_ne _ _ _ (fun hh => hk0n hh.symm)]
            exact hP.1
        · rw [(sweepOne_ne st c0 st1 h1 _ hne).2.2]
          exact hP.2.1
        · rw [sweepOne_ktv st c0 st1 h1]
          exact hP.2.2
      refine ih st1 t h (fun hh => hx1 (List.mem_cons_of_mem _ hh)) ?_ hP1
      intro c hc
      by_cases hcc : c = c0
      · subst hcc
        rw [(sweepOne_clear st c st1 h1).2.2]
        exact fun hh => Option.noConfusion hh
      · rw [(sweepOne_ne st c0 st1 h1 c hcc).2.2]
        exact hx2 c (List.mem_cons_of_mem _ hc)

/-- C3, counterexample.  The claim says connecting a Reveal output
binds key_value[key] = Some(value).  The Reveal variant consumed by
validation.rs carries no value field at all, and connect_body writes
key_to_value[key] = None.  After the reachable chain of C7 connects a
reveal for key 0, the table holds None for key 0 — no value is bound. -/
theorem C3_reveal_binds_no_value :
    connect_body c7s2 c7BodyB = some (none, c7t) ∧
    alGet c7t.key_to_value 0 = some none ∧
    (∀ v : Value, alGet c7t.key_to_value 0 ≠ some (some v)) := by
  refine ⟨by decide, by decide, ?_⟩
  intro v h
  have h2 : alGet c7t.key_to_value 0 = some none := by decide
  rw [h2] at h
  cases h

/-- C3, amended.  After a successful connect_body of a one-transaction
body containing a Reveal output for (key, salt) — when no other output
re-reveals the key with a different salt, no output is a KeyValue for
the key, the reveal's own commitment is not expired in the
intermediate state u, and no expired commitment's commitment_to_key
entry points at the key (all automatic in the honest single-reveal
scenario) — the final state satisfies
key_to_commitment[key] = commit(key, salt),
commitment_to_key[commit(key, salt)] = key, and
key_to_value[key] = None: the reveal registers the key with no bound
value (the value is published separately by a KeyValue output, C10). -/
theorem C3_reveal_connect_effects (s : BitNamesState) (body : Body) (tx : Transaction)
    (t u : BitNamesState) (a : Address) (salt : Nat) (key : Key)
    (hu : u = applyTransactions { s with best_block_height := s.best_block_height + 1 }
      body.transactions)
    (hconn : connect_body s body = some (none, t))
    (htx : body.transactions = [tx])
    (hout : (⟨a, .custom (.reveal salt key)⟩ : Output) ∈ tx.outputs)
    (hsame : ∀ o ∈ tx.outputs, ∀ s0, o.content = .custom (.reveal s0 key) → s0 = salt)
    (hnokv : ∀ o ∈ tx.outputs, ∀ v, o.content ≠ .custom (.keyValue key v))
    (hexp1 : blake2b_hmac key salt ∉ expiredCommitments u)
    (hexp2 : ∀ c ∈ expiredCommitments u, alGet u.commitment_to_key c ≠ some key) :
    alGet t.key_to_commitment key = some (blake2b_hmac key salt) ∧
    alGet t.commitment_to_key (blake2b_hmac key salt) = some key ∧
    alGet t.key_to_value key = some none := by
  have hsw : sweepAll u (expiredCommitments u) = .ok t := by
    rw [hu]
    exact connect_body_ok_sweep s body t hconn
  have hPu : alGet u.key_to_commitment key = some (blake2b_hmac key salt) ∧
      alGet u.commitment_to_key (blake2b_hmac key salt) = some key ∧
      alGet u.key_to_value key = some none := by
    rw [hu, htx]
    show alGet (applyTransaction _ tx).key_to_commitment key = _ ∧ _ ∧ _
    unfold applyTransaction
    exact applyOutputs_reveal_establish key salt tx.outputs _ (hashTx tx) 0
      ⟨⟨a, .custom (.reveal salt key)⟩, hout, rfl⟩ hsame hnokv
  exact sweepAll_reveal_preserve key salt (expiredCommitments u) u t hsw hexp1 hexp2 hPu

/-- C3, witness.  The amended theorem applied to the concrete
in-window reveal connect of the C6 witness chain: key 0 ends bound to
commitment 0 in both directions with key_to_value[0] = None. -/
theorem C3_reveal_connect_effects_witness :
    connect_body c6S c6Body = some (none, connectResult c6S c6Body) ∧
    alGet (connectResult c6S c6Body).key_to_commitment 0 = some (blake2b_hmac 0 0) ∧
    alGet (connectResult c6S c6Body).commitment_to_key (blake2b_hmac 0 0) = some 0 ∧
    alGet (connectResult c6S c6Body).key_to_value 0 = some none := by
  have hconn : connect_body c6S c6Body = some (none, connectResult c6S c6Body) := by
    decide
  have hsame : ∀ o ∈ c6Tx.outputs, ∀ s0,
      o.content = .custom (.reveal s0 0) → s0 = 0 := by
    intro o ho s0 hco
    have hoe : o = ⟨2, .custom (.reveal 0 0)⟩ := by simpa [c6Tx] using ho
    subst hoe
    cases hco
    rfl
  have hnokv : ∀ o ∈ c6Tx.outputs, ∀ v,
      o.content ≠ .custom (.keyValue 0 v) := by
    intro o ho v hco
    have hoe : o = ⟨2, .custom (.reveal 0 0)⟩ := by simpa [c6Tx] using ho
    subst hoe
    cases hco
  have hexp1 : blake2b_hmac 0 0 ∉ expiredCommitments c3U := by decide
  have hexp2 : ∀ c ∈ expiredCommitments c3U,
      alGet c3U.commitment_to_key c ≠ some 0 := by
    intro c hc
    rw [(by decide : expiredCommitments c3U = [])] at hc
    cases hc
  have h := C3_reveal_connect_effects c6S c6Body c6Tx (connectResult c6S c6Body) c3U
    2 0 0 rfl hconn rfl (by decide) hsame hnokv hexp1 hexp2
  exact ⟨hconn, h.1, h.2.1, h.2.2⟩

end SdkBitnames
